import Mathlib

/-!
# plaguewatcher: transaction and block ingestion

A shallow embedding of `plaguewatcher/watcher.go`.

The watcher owns two pieces of mutable state, the storage handle `pw.db` and the
dedup cache `pw.cache`, and it reads the wall clock and the process environment.
All of it is made explicit:

* `Env` holds what the code cannot influence: the successive readings of
  `time.Now()`, the outcome of every `db.Exec` call, the value of the
  `MOCK_PLAGUE` environment variable and the Keccak-256 function used by the
  address checksum.
* `World` holds what the code changes: how many clock readings were taken, the
  contents of the cache, and the statements sent to `db.Exec` so far.

`log.Warn` calls have no effect on any of these and are left out.  The watcher is
the one built by `Init` with dry-run off, so `pw.db` and `pw.cache` are not nil,
and the transactions of a batch are not nil pointers.
-/

namespace PlagueWatcher

/-! ## Hashes, addresses and their text form -/

/-- Modelled from the spec: the hexadecimal text of a byte string, two lower-case digits
per byte (encoding/hex, not under src/). -/
def hexEncode : List (Fin 256) → List Char
  | [] => []
  | b :: bs => Nat.digitChar (b.val / 16) :: Nat.digitChar (b.val % 16) :: hexEncode bs

/-- Modelled from the spec: common.Hash (not under src/), the 32-byte canonical hash of a
transaction or a block. -/
structure Hash where
  bytes : List (Fin 256)
  size_eq : bytes.length = 32
  deriving DecidableEq

/-- Modelled from the spec: common.Hash.Hex (not under src/), the text of a hash:
`0x` followed by 64 lower-case hexadecimal digits. -/
def Hash.Hex (h : Hash) : String :=
  String.mk ('0' :: 'x' :: hexEncode h.bytes)

/-- Modelled from the spec: common.Address (not under src/), a 20-byte account address. -/
structure Address where
  bytes : List (Fin 256)
  size_eq : bytes.length = 20
  deriving DecidableEq

/-- The value of one hexadecimal digit, as `encoding/hex` reads it. -/
def fromHexChar (c : Char) : Option Nat :=
  if '0' ≤ c ∧ c ≤ '9' then some (c.toNat - '0'.toNat)
  else if 'a' ≤ c ∧ c ≤ 'f' then some (c.toNat - 'a'.toNat + 10)
  else if 'A' ≤ c ∧ c ≤ 'F' then some (c.toNat - 'A'.toNat + 10)
  else none

/-- Modelled from the spec: common.Hex2Bytes (not under src/): the bytes decoded from pairs of
hexadecimal digits, up to the first pair that is not one (the error is dropped). -/
def Hex2Bytes : List Char → List (Fin 256)
  | a :: b :: rest =>
    match fromHexChar a, fromHexChar b with
    | some x, some y => Fin.ofNat (x * 16 + y) :: Hex2Bytes rest
    | _, _ => []
  | _ => []

/-- Modelled from the spec: common.FromHex (not under src/): drop an optional `0x`, pad an odd
number of digits with a leading zero, decode. -/
def FromHex (s : List Char) : List (Fin 256) :=
  let s1 := match s with
    | '0' :: 'x' :: r => r
    | '0' :: 'X' :: r => r
    | r => r
  let s2 := if s1.length % 2 = 1 then '0' :: s1 else s1
  Hex2Bytes s2

/-- The 20 bytes `Address.SetBytes` keeps: the last 20 of a longer input, a shorter input
padded on the left with zeros. -/
def setBytes (b : List (Fin 256)) : List (Fin 256) :=
  let b1 := b.drop (b.length - 20)
  List.replicate (20 - b1.length) 0 ++ b1

/-- Modelled from the spec: common.BytesToAddress (not under src/). -/
def BytesToAddress (b : List (Fin 256)) : Address :=
  ⟨setBytes b, by
    simp only [setBytes, List.length_append, List.length_replicate, List.length_drop]
    omega⟩

/-- Modelled from the spec: common.HexToAddress (not under src/). -/
def HexToAddress (s : String) : Address :=
  BytesToAddress (FromHex s.data)

/-- Modelled from the spec: the EIP-55 letter case of common.Address.Hex (not under src/).
Digit `i` of the lower-case text is put in upper case when it is a letter and nibble `i` of
the Keccak-256 hash of the 40 digits is above 7. -/
def checksumCase (hash : List (Fin 256)) : Nat → List Char → List Char
  | _, [] => []
  | i, ch :: rest =>
    let hashByte := (hash.getD (i / 2) 0).val
    let nib := if i % 2 = 0 then hashByte / 16 else hashByte % 16
    (if '9' < ch ∧ 7 < nib then Char.ofNat (ch.toNat - 32) else ch) :: checksumCase hash (i + 1) rest

/-- Modelled from the spec: common.Address.Hex (not under src/), the text of an address:
`0x` followed by 40 hexadecimal digits in EIP-55 mixed case.  Keccak-256 is a parameter. -/
def Address.Hex (keccak256 : List Char → List (Fin 256)) (a : Address) : String :=
  String.mk ('0' :: 'x' :: checksumCase (keccak256 (hexEncode a.bytes)) 0 (hexEncode a.bytes))

/-! ## Transactions and blocks -/

/-- Modelled from the spec: types.Transaction (not under src/), by the accessors the watcher
calls.  `sender` is the outcome of `types.NewLondonSigner(tx.ChainId()).Sender(tx)`: the
recovered address, or the error text when recovery fails. -/
structure Transaction where
  hash : Hash
  gasPrice : Nat
  gas : Nat
  gasFeeCap : Nat
  gasTipCap : Nat
  nonce : Nat
  To : Option Address
  sender : Except String Address

/-- Modelled from the spec: types.Block (not under src/), by the accessors the watcher calls. -/
structure Block where
  hash : Hash
  numberU64 : Nat

/-- The record `PreparedTransaction` of the source: the detail record of a transaction. -/
structure PreparedTransaction where
  tx_hash : String
  tx_fee : String
  gas_fee_cap : String
  gas_tip_cap : String
  tx_first_seen : Int
  receiver : String
  signer : String
  nonce : String
  deriving DecidableEq

/-- The record `TxSummaryTransaction` of the source: the sighting of a transaction. -/
structure TxSummaryTransaction where
  tx_hash : String
  tx_first_seen : Int
  deriving DecidableEq

/-! ## The dedup cache -/

/-- Modelled from the spec: one entry of the expirable LRU cache (hashicorp/golang-lru,
not under src/): key, value and the time after which it counts as absent. -/
structure Entry where
  key : String
  value : String
  expiresAt : Nat
  deriving DecidableEq

/-- Modelled from the spec: the expirable LRU cache (hashicorp/golang-lru, not under src/):
a capacity (`0` for none), a time-to-live in nanoseconds and the entries from the most to
the least recently used.  The background sweep of the library only removes entries that
`Get` already reports absent and is not modelled. -/
structure LRU where
  size : Nat
  ttl : Nat
  evictList : List Entry

/-- The entry stored under a key, if any (the map `items` of the library). -/
def LRU.lookup (l : List Entry) (key : String) : Option Entry :=
  l.find? (fun e => e.key == key)

/-- Modelled from the spec: `LRU.Get` at time `now`: a key that is present and not expired is
reported with its value and becomes the most recently used; anything else is a miss. -/
def LRU.Get (c : LRU) (now : Nat) (key : String) : Option String × LRU :=
  match LRU.lookup c.evictList key with
  | some ent =>
    if ent.expiresAt < now then (none, c)
    else (some ent.value,
      { c with evictList := ent :: c.evictList.filter (fun e => e.key != key) })
  | none => (none, c)

/-- Modelled from the spec: `LRU.Add` at time `now`: a present key is refreshed and moved to
the front; a new key is pushed to the front and, when the capacity is exceeded, the least
recently used entry is removed. -/
def LRU.Add (c : LRU) (now : Nat) (key value : String) : Bool × LRU :=
  match LRU.lookup c.evictList key with
  | some _ =>
    (false, { c with evictList :=
      { key := key, value := value, expiresAt := now + c.ttl } ::
        c.evictList.filter (fun e => e.key != key) })
  | none =>
    let l := { key := key, value := value, expiresAt := now + c.ttl : Entry } :: c.evictList
    if 0 < c.size ∧ c.size < l.length then (true, { c with evictList := l.dropLast })
    else (false, { c with evictList := l })

/-- Whether `Get` at time `now` would report `key`: the key is in the dedup cache. -/
def LRU.contains (c : LRU) (now : Nat) (key : String) : Bool :=
  (c.Get now key).1.isSome

/-- Modelled from the spec: the cache `Init` builds, `expirable.NewLRU(1000000, nil, 24h)`. -/
def initCache : LRU :=
  { size := 1000000, ttl := 86400000000000, evictList := [] }

/-! ## Environment and state -/

/-- One argument of `db.Exec`. -/
inductive SqlArg where
  | str (s : String)
  | uint (n : Nat)
  | int (i : Int)
  deriving DecidableEq

/-- One call of `db.Exec`: the statement and its arguments. -/
structure SqlCall where
  query : String
  args : List SqlArg
  deriving DecidableEq

/-- What the watcher depends on and cannot change. `clock k` is reading number `k` of
`time.Now()` in nanoseconds since the Unix epoch; `exec history call` is the error `db.Exec`
returns for `call` after the calls of `history` (`none` for success). -/
structure Env where
  clock : Nat → Nat
  exec : List SqlCall → SqlCall → Option String
  mock_plague : String
  keccak256 : List Char → List (Fin 256)

/-- What the watcher changes: the number of clock readings taken, the cache `pw.cache` and
the calls made on `pw.db`, oldest first. -/
structure World where
  tick : Nat
  cache : LRU
  calls : List SqlCall

/-- `time.Now().UnixMilli()` for a reading in nanoseconds. -/
def unixMilli (t : Nat) : Int := ((t / 1000000 : Nat) : Int)

/-- `pw.cache.Get(key)`: the library reads the clock only when the key is present. -/
def cacheGet (env : Env) (w : World) (key : String) : Option String × World :=
  let r := w.cache.Get (env.clock w.tick) key
  (r.1, { w with
    tick := if (LRU.lookup w.cache.evictList key).isSome then w.tick + 1 else w.tick,
    cache := r.2 })

/-- `pw.cache.Add(key, value)`: one clock reading. -/
def cacheAdd (env : Env) (w : World) (key value : String) : Bool × World :=
  let r := w.cache.Add (env.clock w.tick) key value
  (r.1, { w with tick := w.tick + 1, cache := r.2 })

/-- `pw.db.Exec(query, args...)`: the call is recorded and the storage answers. -/
def dbExec (env : Env) (w : World) (call : SqlCall) : Option String × World :=
  (env.exec w.calls call, { w with calls := w.calls ++ [call] })

/-! ## Text formatting -/

/-- `strconv.FormatUint(x, 10)`: the decimal text of an unsigned integer. -/
def FormatUint (x : Nat) : String := Nat.repr x

/-- Modelled from the spec: `uint256.Int.String` (not under src/), the decimal string form. -/
def uint256String (x : Nat) : String := Nat.repr x

/-- `strings.TrimSuffix(s, suffix)`. -/
def TrimSuffix (s suffix : String) : String :=
  if suffix.data.isSuffixOf s.data then
    String.mk (s.data.take (s.data.length - suffix.data.length))
  else s

/-! ## The watcher -/

/-- The peer registration statement, shared by `StoreTxSummary` and `HandleBlocksFetched`. -/
def peerInsertSQL : String :=
  "INSERT INTO peer (peer_id) VALUES ($1) ON CONFLICT (peer_id) DO NOTHING;"

/-- The call that registers a peer. -/
def registerPeer (peerID : String) : SqlCall :=
  { query := peerInsertSQL, args := [SqlArg.str peerID] }

/-- The text of `sqlstring` before its `%s`. -/
def sqlstringHead : String :=
  "WITH input_rows(tx_hash, peer_id, tx_first_seen, time) AS (\n\t\tVALUES "

/-- The text of `sqlstring` after its `%s`. -/
def sqlstringTail : String :=
  "\n\t)\n\tINSERT INTO tx_summary (tx_hash, peer_id, tx_first_seen, time)\n\tSELECT input_rows.tx_hash, input_rows.peer_id, input_rows.tx_first_seen, input_rows.time\n\tFROM input_rows\n\tON CONFLICT (tx_hash, peer_id, tx_first_seen) DO NOTHING;"

/-- One row of the value list, without the comma that follows it:
`fmt.Sprintf("('%s', '%s', %d, %d)", tx.tx_hash, peerID, tx.tx_first_seen, tx.tx_first_seen)`. -/
def valuesRow (tx : TxSummaryTransaction) (peerID : String) : String :=
  "('" ++ tx.tx_hash ++ "', '" ++ peerID ++ "', " ++ toString tx.tx_first_seen ++ ", " ++
    toString tx.tx_first_seen ++ ")"

/-- The function `StoreTxSummary` of the source: register the peer; on failure stop, else send
one statement whose value list is built by concatenation.  Nothing is returned. -/
def StoreTxSummary (env : Env) (w : World) (txs : List TxSummaryTransaction)
    (peerID : String) : World :=
  let r := dbExec env w (registerPeer peerID)
  match r.1 with
  | some _ => r.2
  | none =>
    let valuesSQL := txs.foldl (fun acc tx => acc ++ (valuesRow tx peerID ++ ",")) ""
    let valuesSQL := TrimSuffix valuesSQL ","
    let query := sqlstringHead ++ valuesSQL ++ sqlstringTail
    (dbExec env r.2 { query := query, args := [] }).2

/-- The sentinel signer of the source, `common.HexToAddress("0x438308")`. -/
def sentinelSigner : Address := HexToAddress "0x438308"

/-- The detail record built in the loop body of `prepareTransactions` (lines 110 to 135 of
the source) for a transaction first seen at `ts`. -/
def detailRecord (env : Env) (tx : Transaction) (ts : Int) : PreparedTransaction :=
  let gasFeeCap := uint256String tx.gasFeeCap
  let gasTipCap := uint256String tx.gasTipCap
  let fee := FormatUint (((tx.gasPrice % 2 ^ 64) * tx.gas) % 2 ^ 64)
  let nonce := FormatUint tx.nonce
  let addr := match tx.sender with
    | Except.ok a => a
    | Except.error _ => sentinelSigner
  let receiver := match tx.To with
    | none => "0x0"
    | some a => a.Hex env.keccak256
  { tx_hash := tx.hash.Hex, tx_fee := fee, gas_fee_cap := gasFeeCap, gas_tip_cap := gasTipCap,
    tx_first_seen := ts, receiver := receiver, signer := addr.Hex env.keccak256, nonce := nonce }

/-- One iteration of the loop of `prepareTransactions`, on the two result slices and the
state: read the clock, append the sighting, and unless the cache has the hash, append the
detail record and add the hash to the cache. -/
def prepareStep (env : Env)
    (acc : List PreparedTransaction × List TxSummaryTransaction × World)
    (tx : Transaction) : List PreparedTransaction × List TxSummaryTransaction × World :=
  let preparedTxs := acc.1
  let w := acc.2.2
  let ts := unixMilli (env.clock w.tick)
  let w1 : World := { w with tick := w.tick + 1 }
  let tx_summary := acc.2.1 ++ [{ tx_hash := tx.hash.Hex, tx_first_seen := ts }]
  let g := cacheGet env w1 tx.hash.Hex
  match g.1 with
  | some _ => (preparedTxs, tx_summary, g.2)
  | none =>
    let a := cacheAdd env g.2 tx.hash.Hex tx.hash.Hex
    (preparedTxs ++ [detailRecord env tx ts], tx_summary, a.2)

/-- The function `prepareTransactions` of the source: the detail records, the sighting
records and the state it leaves. -/
def prepareTransactions (env : Env) (w : World) (txs : List Transaction) :
    List PreparedTransaction × List TxSummaryTransaction × World :=
  txs.foldl (prepareStep env) ([], [], w)

/-- The function `HandleTxs` of the source: the returned error (`none` for nil) and the state
it leaves. -/
def HandleTxs (env : Env) (w : World) (txs : List Transaction) (peerID : String) :
    Option String × World :=
  if env.mock_plague = "true" then (none, w)
  else
    let r := prepareTransactions env w txs
    let preparedTxs := r.1
    let txs_summary := r.2.1
    if preparedTxs.length = 0 ∧ txs_summary.length = 0 then (none, r.2.2)
    else if preparedTxs.length = 0 ∧ txs_summary.length > 0 then
      (none, StoreTxSummary env r.2.2 txs_summary peerID)
    else (none, r.2.2)

/-- The statement of `HandleBlocksFetched`. -/
def blockInsertSQL : String :=
  "INSERT INTO block_fetched(block_hash, block_number, first_seen_ts, peer, peer_remote_addr, peer_local_addr) VALUES($1,$2,$3,$4,$5,$6)"

/-- The call that inserts one block_fetched row. -/
def blockInsert (block : Block) (ts : Int) (peerID peerRemoteAddr peerLocalAddr : String) :
    SqlCall :=
  { query := blockInsertSQL,
    args := [SqlArg.str block.hash.Hex, SqlArg.uint block.numberU64, SqlArg.int ts,
      SqlArg.str peerID, SqlArg.str peerRemoteAddr, SqlArg.str peerLocalAddr] }

/-- The function `HandleBlocksFetched` of the source: the returned error (`none` for nil) and
the state it leaves. -/
def HandleBlocksFetched (env : Env) (w : World) (block : Block)
    (peerID peerRemoteAddr peerLocalAddr : String) : Option String × World :=
  if env.mock_plague = "true" then (none, w)
  else
    let r := dbExec env w (registerPeer peerID)
    match r.1 with
    | some err => (some err, r.2)
    | none =>
      let ts := unixMilli (env.clock r.2.tick)
      let w1 : World := { r.2 with tick := r.2.tick + 1 }
      dbExec env w1 (blockInsert block ts peerID peerRemoteAddr peerLocalAddr)

/-! ## Notions used to state the dedup properties -/

/-- The transactions of a batch that get a detail record according to the spec: going
through the batch in order, those whose hash was not in the cache when the call started and
did not occur earlier in the batch (`seen` holds the hashes that occurred so far). -/
def firstUncached (cached : Hash → Bool) : List Hash → List Transaction → List Transaction
  | _, [] => []
  | seen, tx :: rest =>
    if cached tx.hash = true ∨ tx.hash ∈ seen then firstUncached cached seen rest
    else tx :: firstUncached cached (tx.hash :: seen) rest

/-- No expiry between the clock readings `t0` and `T`: any two readings of that window are
within the time-to-live of each other, so an entry added in the window stays valid in it, and
every entry of the cache `c` is expired at all of them or at none. -/
def NoExpiry (env : Env) (c : LRU) (t0 T : Nat) : Prop :=
  (∀ i j, t0 ≤ i → i < T → t0 ≤ j → j < T → env.clock j ≤ env.clock i + c.ttl) ∧
  (∀ e ∈ c.evictList, ∀ j, t0 ≤ j → j < T →
    (e.expiresAt < env.clock j ↔ e.expiresAt < env.clock t0))

/-- No eviction while `n` more keys are added: the cache has no capacity bound or has room
for `n` more entries. -/
def NoEviction (c : LRU) (n : Nat) : Prop :=
  c.size = 0 ∨ c.evictList.length + n ≤ c.size

/-- The state `w` reached from the cache `c0` at reading `t0` after the keys `added` were
added and nothing was evicted: the added keys hold an entry that was stamped in the window,
every other key holds what it held in `c0`. -/
structure Tracks (env : Env) (c0 : LRU) (t0 : Nat) (added : List String) (w : World) :
    Prop where
  size_eq : w.cache.size = c0.size
  ttl_eq : w.cache.ttl = c0.ttl
  tick_ge : t0 ≤ w.tick
  length_le : w.cache.evictList.length ≤ c0.evictList.length + added.length
  fresh : ∀ k ∈ added, ∃ e i, LRU.lookup w.cache.evictList k = some e ∧ t0 ≤ i ∧ i < w.tick ∧
    e.expiresAt = env.clock i + c0.ttl
  old : ∀ k, k ∉ added → LRU.lookup w.cache.evictList k = LRU.lookup c0.evictList k

/-- The state `w` reached from the cache `c0` at reading `t0` holds, under every key outside
`done`, nothing that `c0` did not hold under that key. -/
structure Forgets (c0 : LRU) (t0 : Nat) (done : List String) (w : World) : Prop where
  tick_ge : t0 ≤ w.tick
  sub : ∀ k, k ∉ done → ∀ e, LRU.lookup w.cache.evictList k = some e →
    LRU.lookup c0.evictList k = some e

/-- The most recently used entries of the state `w` are those of the keys `done`, the last
added first, each stamped at a reading of the clock not before `t0`. -/
structure Fronts (env : Env) (c0 : LRU) (t0 : Nat) (done : List String) (w : World) :
    Prop where
  size_eq : w.cache.size = c0.size
  ttl_eq : w.cache.ttl = c0.ttl
  front : ∃ fresh rest, w.cache.evictList = fresh ++ rest ∧
    fresh.map (fun e => e.key) = done ∧
    ∀ e ∈ fresh, ∃ i, t0 ≤ i ∧ i < w.tick ∧ e.expiresAt = env.clock i + c0.ttl

/-! ## Concrete inputs -/

/-- The hash whose last byte is `b` and whose other bytes are zero. -/
def hashOfByte (b : Fin 256) : Hash :=
  ⟨List.replicate 31 0 ++ [b], by simp⟩

/-- A transfer at 1000 gwei per gas with a gas amount of 30 million: the exact product,
`3 * 10 ^ 19`, is above `2 ^ 64`. -/
def overflowTx : Transaction :=
  { hash := hashOfByte 1, gasPrice := 1000000000000, gas := 30000000, gasFeeCap := 1000000000000,
    gasTipCap := 0, nonce := 0, To := none, sender := Except.ok sentinelSigner }

/-- A clock that advances by one nanosecond per reading, and a storage that never fails. -/
def demoEnv : Env :=
  { clock := fun k => 1700000000000000000 + k, exec := fun _ _ => none, mock_plague := "",
    keccak256 := fun _ => [] }

/-- The state right after `Init`: no reading taken, an empty cache, no storage call. -/
def initWorld : World :=
  { tick := 0, cache := initCache, calls := [] }

/-- A plain transfer whose hash ends in the byte `b`, signed by an account the signer
recovers. -/
def sampleTx (b : Fin 256) : Transaction :=
  { hash := hashOfByte b, gasPrice := 30000000000, gas := 21000, gasFeeCap := 30000000000,
    gasTipCap := 1000000000, nonce := b.val, To := some (BytesToAddress [1, b]),
    sender := Except.ok (BytesToAddress [2, b]) }

/-- The same transfer with a signature from which no sender can be recovered. -/
def unsignedTx (b : Fin 256) : Transaction :=
  { sampleTx b with sender := Except.error "invalid signature" }

/-- The state after `Init` in which the cache holds, still valid for a day, the hash that
ends in the byte 2. -/
def cachedWorld : World :=
  { tick := 0,
    cache := { initCache with evictList :=
      [{ key := (hashOfByte 2).Hex, value := (hashOfByte 2).Hex,
         expiresAt := 1700086400000000000 }] },
    calls := [] }

end PlagueWatcher

namespace PlagueWatcher

/-! ## The loop of `prepareTransactions`, one transaction at a time -/

theorem prepareStep_acc (env : Env) (ps : List PreparedTransaction)
    (ss : List TxSummaryTransaction) (w : World) (tx : Transaction) :
    prepareStep env (ps, ss, w) tx =
      (ps ++ (prepareStep env ([], [], w) tx).1, ss ++ (prepareStep env ([], [], w) tx).2.1,
        (prepareStep env ([], [], w) tx).2.2) := by
  simp only [prepareStep]
  split <;> simp

theorem foldl_prepareStep_acc (env : Env) (txs : List Transaction) :
    ∀ (ps : List PreparedTransaction) (ss : List TxSummaryTransaction) (w : World),
      txs.foldl (prepareStep env) (ps, ss, w) =
        (ps ++ (txs.foldl (prepareStep env) ([], [], w)).1,
          ss ++ (txs.foldl (prepareStep env) ([], [], w)).2.1,
          (txs.foldl (prepareStep env) ([], [], w)).2.2) := by
  induction txs with
  | nil => intro ps ss w; simp
  | cons tx txs ih =>
    intro ps ss w
    simp only [List.foldl_cons]
    rw [prepareStep_acc env ps ss w tx, ih]
    conv_rhs => rw [ih]
    simp [List.append_assoc]

theorem prepareTransactions_nil (env : Env) (w : World) :
    prepareTransactions env w [] = ([], [], w) := rfl

theorem prepareTransactions_cons (env : Env) (w : World) (tx : Transaction)
    (txs : List Transaction) :
    prepareTransactions env w (tx :: txs) =
      ((prepareStep env ([], [], w) tx).1 ++
          (prepareTransactions env (prepareStep env ([], [], w) tx).2.2 txs).1,
        (prepareStep env ([], [], w) tx).2.1 ++
          (prepareTransactions env (prepareStep env ([], [], w) tx).2.2 txs).2.1,
        (prepareTransactions env (prepareStep env ([], [], w) tx).2.2 txs).2.2) := by
  simp only [prepareTransactions, List.foldl_cons]
  rw [foldl_prepareStep_acc]

theorem prepareTransactions_append (env : Env) (w : World) (pre post : List Transaction) :
    prepareTransactions env w (pre ++ post) =
      ((prepareTransactions env w pre).1 ++
          (prepareTransactions env (prepareTransactions env w pre).2.2 post).1,
        (prepareTransactions env w pre).2.1 ++
          (prepareTransactions env (prepareTransactions env w pre).2.2 post).2.1,
        (prepareTransactions env (prepareTransactions env w pre).2.2 post).2.2) := by
  induction pre generalizing w with
  | nil => simp [prepareTransactions_nil]
  | cons tx pre ih =>
    rw [List.cons_append, prepareTransactions_cons, ih, prepareTransactions_cons]
    simp [List.append_assoc]

/-- The sighting appended by one iteration. -/
theorem prepareStep_summary (env : Env) (w : World) (tx : Transaction) :
    (prepareStep env ([], [], w) tx).2.1 =
      [{ tx_hash := tx.hash.Hex, tx_first_seen := unixMilli (env.clock w.tick) }] := by
  simp only [prepareStep]
  split <;> simp

/-- The storage calls are not touched by one iteration. -/
theorem prepareStep_calls (env : Env) (w : World) (tx : Transaction) :
    (prepareStep env ([], [], w) tx).2.2.calls = w.calls := by
  simp only [prepareStep]
  split <;> simp [cacheGet, cacheAdd]

theorem prepareTransactions_calls (env : Env) (txs : List Transaction) :
    ∀ w : World, (prepareTransactions env w txs).2.2.calls = w.calls := by
  induction txs with
  | nil => intro w; rfl
  | cons tx txs ih =>
    intro w
    rw [prepareTransactions_cons]
    simp only [ih, prepareStep_calls]

theorem prepareTransactions_summary_hashes (env : Env) (txs : List Transaction) :
    ∀ w : World, (prepareTransactions env w txs).2.1.map (fun s => s.tx_hash) =
      txs.map (fun tx => tx.hash.Hex) := by
  induction txs with
  | nil => intro w; rfl
  | cons tx txs ih =>
    intro w
    rw [prepareTransactions_cons]
    simp [ih, prepareStep_summary]

/-- C3: for every batch and every state of the cache, the sighting list returned by
prepareTransactions has exactly one record per input transaction, in input order, record
number i carrying the hash of transaction number i; nothing is assumed about the cache or
about repeated hashes. -/
theorem sightings_one_per_transaction (env : Env) (w : World) (txs : List Transaction) :
    (prepareTransactions env w txs).2.1.length = txs.length ∧
    (prepareTransactions env w txs).2.1.map (fun s => s.tx_hash) =
      txs.map (fun tx => tx.hash.Hex) ∧
    ∀ i : Nat, ((prepareTransactions env w txs).2.1[i]?).map (fun s => s.tx_hash) =
      (txs[i]?).map (fun tx => tx.hash.Hex) := by
  have h := prepareTransactions_summary_hashes env txs w
  have hl : (prepareTransactions env w txs).2.1.length = txs.length := by
    have := congrArg List.length h
    simpa using this
  refine ⟨hl, h, ?_⟩
  intro i
  have := congrArg (fun l => l[i]?) h
  simpa only [List.getElem?_map] using this

/-! ## Fee, receiver and signer of a detail record -/

/-- C2: at a gas price of 1000 gwei and a gas amount of 30 million, on the empty cache, the
detail record produced by prepareTransactions has the tx_fee string 11553255926290448384,
which is the product reduced modulo 2 ^ 64, while the exact product is
30000000000000000000. -/
theorem fee_wraps_modulo_two_pow_64 (env : Env) :
    (prepareTransactions env initWorld [overflowTx]).1.map (fun p => p.tx_fee) =
      ["11553255926290448384"] ∧
    FormatUint (overflowTx.gasPrice * overflowTx.gas) = "30000000000000000000" ∧
    overflowTx.gasPrice < 2 ^ 64 ∧ overflowTx.gas < 2 ^ 64 := by
  refine ⟨?_, by decide, by decide, by decide⟩
  simp [prepareTransactions, prepareStep, cacheGet, cacheAdd, LRU.Get, LRU.lookup, initWorld,
    initCache]
  rfl

/-- The fee string is exact whenever the product fits in 64 bits. -/
theorem fee_exact_below_two_pow_64 (env : Env) (tx : Transaction) (ts : Int)
    (h : tx.gasPrice * tx.gas < 2 ^ 64) :
    (detailRecord env tx ts).tx_fee = FormatUint (tx.gasPrice * tx.gas) := by
  simp only [detailRecord]
  congr 1
  rcases Nat.eq_zero_or_pos tx.gas with h0 | hpos
  · simp [h0]
  · have hp : tx.gasPrice < 2 ^ 64 :=
      lt_of_le_of_lt (Nat.le_mul_of_pos_right _ hpos) h
    rw [Nat.mod_eq_of_lt hp, Nat.mod_eq_of_lt h]

theorem checksumCase_length (hash : List (Fin 256)) (l : List Char) :
    ∀ i : Nat, (checksumCase hash i l).length = l.length := by
  induction l with
  | nil => intro i; rfl
  | cons c l ih => intro i; simp [checksumCase, ih]

theorem hexEncode_length (bs : List (Fin 256)) : (hexEncode bs).length = 2 * bs.length := by
  induction bs with
  | nil => rfl
  | cons b bs ih => simp only [hexEncode, List.length_cons, ih]; omega

theorem Address_Hex_length (keccak256 : List Char → List (Fin 256)) (a : Address) :
    (Address.Hex keccak256 a).data.length = 42 := by
  simp [Address.Hex, checksumCase_length, hexEncode_length, a.size_eq]

theorem Address_Hex_ne_sentinel (keccak256 : List Char → List (Fin 256)) (a : Address) :
    Address.Hex keccak256 a ≠ "0x0" := by
  intro h
  have := Address_Hex_length keccak256 a
  rw [h] at this
  revert this
  decide

/-- The detail record appended by one iteration when the cache does not have the hash. -/
theorem prepareStep_miss (env : Env) (w : World) (tx : Transaction)
    (h : w.cache.contains (env.clock (w.tick + 1)) tx.hash.Hex = false) :
    (prepareStep env ([], [], w) tx).1 = [detailRecord env tx (unixMilli (env.clock w.tick))] := by
  have hg : (cacheGet env { w with tick := w.tick + 1 } tx.hash.Hex).1 = none := by
    simpa [LRU.contains, cacheGet] using h
  simp only [prepareStep]
  split
  · rename_i v hv
    rw [hg] at hv
    cases hv
  · simp

/-- Nothing is appended by one iteration when the cache has the hash. -/
theorem prepareStep_hit (env : Env) (w : World) (tx : Transaction)
    (h : w.cache.contains (env.clock (w.tick + 1)) tx.hash.Hex = true) :
    (prepareStep env ([], [], w) tx).1 = [] := by
  have hg : (cacheGet env { w with tick := w.tick + 1 } tx.hash.Hex).1.isSome = true := by
    simpa [LRU.contains, cacheGet] using h
  simp only [prepareStep]
  split
  · simp
  · rename_i hv
    rw [hv] at hg
    cases hg

/-- C7: a transaction without recipient that the cache does not have when it is processed,
anywhere in a batch, gets a detail record whose receiver is the fixed text 0x0; that text is
not empty, and it differs from the receiver of every transaction with a recipient, which is
a text of 42 characters. -/
theorem no_recipient_gives_sentinel (env : Env) (w : World) (pre post : List Transaction)
    (tx : Transaction) (hTo : tx.To = none)
    (hmiss : (prepareTransactions env w pre).2.2.cache.contains
      (env.clock ((prepareTransactions env w pre).2.2.tick + 1)) tx.hash.Hex = false) :
    (∃ (p : PreparedTransaction) (rest : List PreparedTransaction),
      (prepareTransactions env w (pre ++ tx :: post)).1 =
        (prepareTransactions env w pre).1 ++ p :: rest ∧
      p = detailRecord env tx (unixMilli (env.clock (prepareTransactions env w pre).2.2.tick)) ∧
      p.tx_hash = tx.hash.Hex ∧ p.receiver = "0x0" ∧ p.receiver ≠ "") ∧
    ∀ (tx2 : Transaction) (ts : Int) (a : Address), tx2.To = some a →
      (detailRecord env tx2 ts).receiver = a.Hex env.keccak256 ∧
      (detailRecord env tx2 ts).receiver ≠ "0x0" ∧
      (detailRecord env tx2 ts).receiver.data.length = 42 := by
  constructor
  · refine ⟨detailRecord env tx (unixMilli (env.clock (prepareTransactions env w pre).2.2.tick)),
      (prepareTransactions env
        (prepareStep env ([], [], (prepareTransactions env w pre).2.2) tx).2.2 post).1,
      ?_, rfl, rfl, ?_, ?_⟩
    · rw [prepareTransactions_append, prepareTransactions_cons, prepareStep_miss env _ tx hmiss]
      rfl
    · simp [detailRecord, hTo]
    · simp [detailRecord, hTo]
  · intro tx2 ts a ha
    have hr : (detailRecord env tx2 ts).receiver = a.Hex env.keccak256 := by
      simp [detailRecord, ha]
    rw [hr]
    exact ⟨rfl, Address_Hex_ne_sentinel _ a, Address_Hex_length _ a⟩

/-- C7 at a batch of one contract creation on the empty cache. -/
theorem no_recipient_gives_sentinel_witness :
    ∃ (p : PreparedTransaction) (rest : List PreparedTransaction),
      (prepareTransactions demoEnv initWorld ([] ++ overflowTx :: [])).1 =
        (prepareTransactions demoEnv initWorld []).1 ++ p :: rest ∧
      p = detailRecord demoEnv overflowTx
        (unixMilli (demoEnv.clock (prepareTransactions demoEnv initWorld []).2.2.tick)) ∧
      p.tx_hash = overflowTx.hash.Hex ∧ p.receiver = "0x0" ∧ p.receiver ≠ "" :=
  (no_recipient_gives_sentinel demoEnv initWorld [] [] overflowTx rfl (by
    simp [prepareTransactions_nil, LRU.contains, LRU.Get, LRU.lookup, initWorld, initCache])).1

/-! ## The recorders -/

/-- C8: with dry-run off, HandleBlocksFetched first sends the peer registration, the
insert-if-absent statement on table peer with the peer id as its argument; when that fails it
returns the storage error unchanged and sends nothing else; when it succeeds it sends exactly
one more statement, the insert into block_fetched whose six arguments are the hash and number
of the block, the time, the peer id and both addresses, and returns what that insert
returned.  So an error is returned exactly when the registration or the insert fails. -/
theorem block_fetch_registers_then_inserts (env : Env) (w : World) (block : Block)
    (peerID peerRemoteAddr peerLocalAddr : String) (hdry : env.mock_plague ≠ "true") :
    (∀ e, env.exec w.calls
          { query := "INSERT INTO peer (peer_id) VALUES ($1) ON CONFLICT (peer_id) DO NOTHING;",
            args := [SqlArg.str peerID] } = some e →
      HandleBlocksFetched env w block peerID peerRemoteAddr peerLocalAddr =
        (some e, { w with calls := w.calls ++ [
          { query := "INSERT INTO peer (peer_id) VALUES ($1) ON CONFLICT (peer_id) DO NOTHING;",
            args := [SqlArg.str peerID] }] })) ∧
    (env.exec w.calls
          { query := "INSERT INTO peer (peer_id) VALUES ($1) ON CONFLICT (peer_id) DO NOTHING;",
            args := [SqlArg.str peerID] } = none →
      (HandleBlocksFetched env w block peerID peerRemoteAddr peerLocalAddr).1 =
        env.exec (w.calls ++ [
          { query := "INSERT INTO peer (peer_id) VALUES ($1) ON CONFLICT (peer_id) DO NOTHING;",
            args := [SqlArg.str peerID] }])
          { query := "INSERT INTO block_fetched(block_hash, block_number, first_seen_ts, peer, peer_remote_addr, peer_local_addr) VALUES($1,$2,$3,$4,$5,$6)",
            args := [SqlArg.str block.hash.Hex, SqlArg.uint block.numberU64,
              SqlArg.int (unixMilli (env.clock w.tick)), SqlArg.str peerID,
              SqlArg.str peerRemoteAddr, SqlArg.str peerLocalAddr] } ∧
      (HandleBlocksFetched env w block peerID peerRemoteAddr peerLocalAddr).2.calls =
        w.calls ++ [
          { query := "INSERT INTO peer (peer_id) VALUES ($1) ON CONFLICT (peer_id) DO NOTHING;",
            args := [SqlArg.str peerID] },
          { query := "INSERT INTO block_fetched(block_hash, block_number, first_seen_ts, peer, peer_remote_addr, peer_local_addr) VALUES($1,$2,$3,$4,$5,$6)",
            args := [SqlArg.str block.hash.Hex, SqlArg.uint block.numberU64,
              SqlArg.int (unixMilli (env.clock w.tick)), SqlArg.str peerID,
              SqlArg.str peerRemoteAddr, SqlArg.str peerLocalAddr] }]) ∧
    ((HandleBlocksFetched env w block peerID peerRemoteAddr peerLocalAddr).1 ≠ none ↔
      env.exec w.calls
          { query := "INSERT INTO peer (peer_id) VALUES ($1) ON CONFLICT (peer_id) DO NOTHING;",
            args := [SqlArg.str peerID] } ≠ none ∨
      (env.exec w.calls
          { query := "INSERT INTO peer (peer_id) VALUES ($1) ON CONFLICT (peer_id) DO NOTHING;",
            args := [SqlArg.str peerID] } = none ∧
        env.exec (w.calls ++ [
          { query := "INSERT INTO peer (peer_id) VALUES ($1) ON CONFLICT (peer_id) DO NOTHING;",
            args := [SqlArg.str peerID] }])
          { query := "INSERT INTO block_fetched(block_hash, block_number, first_seen_ts, peer, peer_remote_addr, peer_local_addr) VALUES($1,$2,$3,$4,$5,$6)",
            args := [SqlArg.str block.hash.Hex, SqlArg.uint block.numberU64,
              SqlArg.int (unixMilli (env.clock w.tick)), SqlArg.str peerID,
              SqlArg.str peerRemoteAddr, SqlArg.str peerLocalAddr] } ≠ none)) ∧
    (HandleBlocksFetched env w block peerID peerRemoteAddr peerLocalAddr).2.cache = w.cache := by
  cases hreg : env.exec w.calls
      { query := "INSERT INTO peer (peer_id) VALUES ($1) ON CONFLICT (peer_id) DO NOTHING;",
            args := [SqlArg.str peerID] } with
  | none =>
    simp [HandleBlocksFetched, hdry, dbExec, hreg, blockInsert, registerPeer, peerInsertSQL,
      blockInsertSQL]
  | some e =>
    simp [HandleBlocksFetched, hdry, dbExec, hreg, registerPeer, peerInsertSQL]

/-- C8 for block number 7 reported by peer p1 to a storage that never fails: nil is
returned after the registration of p1 and one insert into block_fetched. -/
theorem block_fetch_registers_then_inserts_witness :
    (HandleBlocksFetched demoEnv initWorld { hash := hashOfByte 9, numberU64 := 7 }
      "p1" "10.0.0.1:30303" "10.0.0.2:30303").1 = none ∧
    (HandleBlocksFetched demoEnv initWorld { hash := hashOfByte 9, numberU64 := 7 }
      "p1" "10.0.0.1:30303" "10.0.0.2:30303").2.calls =
      [ { query := "INSERT INTO peer (peer_id) VALUES ($1) ON CONFLICT (peer_id) DO NOTHING;",
            args := [SqlArg.str "p1"] },
        { query := "INSERT INTO block_fetched(block_hash, block_number, first_seen_ts, peer, peer_remote_addr, peer_local_addr) VALUES($1,$2,$3,$4,$5,$6)",
            args := [SqlArg.str (hashOfByte 9).Hex, SqlArg.uint 7,
              SqlArg.int (unixMilli (demoEnv.clock 0)), SqlArg.str "p1",
              SqlArg.str "10.0.0.1:30303", SqlArg.str "10.0.0.2:30303"] }] :=
  (block_fetch_registers_then_inserts demoEnv initWorld { hash := hashOfByte 9, numberU64 := 7 }
    "p1" "10.0.0.1:30303" "10.0.0.2:30303" (by decide)).2.1 rfl

theorem TrimSuffix_append (x s : String) : TrimSuffix (x ++ s) s = x := by
  have hsuf : s.data.isSuffixOf (x.data ++ s.data) = true := by
    rw [List.isSuffixOf_iff_suffix]
    exact List.suffix_append _ _
  simp [TrimSuffix, hsuf]

/-- Concatenating rows that each end in the separator is `String.intercalate` followed by
one more separator. -/
theorem foldl_rows_eq_intercalate (sep : String) (rest : List String) :
    ∀ (acc r : String),
      rest.foldl (fun a x => a ++ (x ++ sep)) (acc ++ (r ++ sep)) =
        String.intercalate.go (acc ++ r) sep rest ++ sep := by
  induction rest with
  | nil => intro acc r; simp [String.intercalate.go, String.append_assoc]
  | cons x rest ih =>
    intro acc r
    simp only [List.foldl_cons, String.intercalate.go]
    rw [ih (acc ++ (r ++ sep)) x]
    simp only [String.append_assoc]

theorem valuesSQL_eq_intercalate (rows : List String) (hne : rows ≠ []) :
    TrimSuffix (rows.foldl (fun a x => a ++ (x ++ ",")) "") "," = String.intercalate "," rows := by
  cases rows with
  | nil => exact absurd rfl hne
  | cons r rest =>
    simp only [List.foldl_cons, String.intercalate]
    rw [foldl_rows_eq_intercalate "," rest "" r, TrimSuffix_append, String.empty_append]

/-- C9: for a non-empty sequence of sightings, StoreTxSummary first sends the peer
registration, the insert-if-absent statement on table peer with the peer id as its argument;
when that fails it sends nothing else; when it succeeds it sends exactly one more statement,
the insert into tx_summary from a value list that is the rows of the sightings in order,
separated by commas, each row holding the hash, the peer id and the timestamp (twice) of its
sighting.  Nothing is returned to the caller, so no failure of either call is raised, and the
cache is not touched. -/
theorem store_summary_registers_then_batches (env : Env) (w : World)
    (txs : List TxSummaryTransaction) (peerID : String) (hne : txs ≠ []) :
    (env.exec w.calls
          { query := "INSERT INTO peer (peer_id) VALUES ($1) ON CONFLICT (peer_id) DO NOTHING;",
            args := [SqlArg.str peerID] } ≠ none →
      (StoreTxSummary env w txs peerID).calls = w.calls ++ [
          { query := "INSERT INTO peer (peer_id) VALUES ($1) ON CONFLICT (peer_id) DO NOTHING;",
            args := [SqlArg.str peerID] }]) ∧
    (env.exec w.calls
          { query := "INSERT INTO peer (peer_id) VALUES ($1) ON CONFLICT (peer_id) DO NOTHING;",
            args := [SqlArg.str peerID] } = none →
      (StoreTxSummary env w txs peerID).calls = w.calls ++ [
          { query := "INSERT INTO peer (peer_id) VALUES ($1) ON CONFLICT (peer_id) DO NOTHING;",
            args := [SqlArg.str peerID] },
        { query :=
            "WITH input_rows(tx_hash, peer_id, tx_first_seen, time) AS (\n\t\tVALUES " ++
            String.intercalate "," (txs.map (fun tx =>
              "('" ++ tx.tx_hash ++ "', '" ++ peerID ++ "', " ++ toString tx.tx_first_seen ++
                ", " ++ toString tx.tx_first_seen ++ ")")) ++
            "\n\t)\n\tINSERT INTO tx_summary (tx_hash, peer_id, tx_first_seen, time)\n\tSELECT input_rows.tx_hash, input_rows.peer_id, input_rows.tx_first_seen, input_rows.time\n\tFROM input_rows\n\tON CONFLICT (tx_hash, peer_id, tx_first_seen) DO NOTHING;",
          args := [] }]) ∧
    (StoreTxSummary env w txs peerID).cache = w.cache ∧
    (StoreTxSummary env w txs peerID).tick = w.tick := by
  have hrows : TrimSuffix (txs.foldl (fun acc tx => acc ++ (valuesRow tx peerID ++ ",")) "") "," =
      String.intercalate "," (txs.map (fun tx => valuesRow tx peerID)) := by
    rw [← valuesSQL_eq_intercalate _ (by simpa using hne), List.foldl_map]
  cases hreg : env.exec w.calls
      { query := "INSERT INTO peer (peer_id) VALUES ($1) ON CONFLICT (peer_id) DO NOTHING;",
            args := [SqlArg.str peerID] } with
  | none =>
    simp only [StoreTxSummary, dbExec, registerPeer, peerInsertSQL, hreg, hrows]
    simp [valuesRow, sqlstringHead, sqlstringTail]
  | some e =>
    simp [StoreTxSummary, dbExec, registerPeer, peerInsertSQL, hreg]

/-- C9 for two sightings reported by peer p1 to a storage that never fails. -/
theorem store_summary_registers_then_batches_witness :
    (StoreTxSummary demoEnv initWorld
      [{ tx_hash := "0xab", tx_first_seen := 5 }, { tx_hash := "0xcd", tx_first_seen := 6 }]
      "p1").calls =
      [ { query := "INSERT INTO peer (peer_id) VALUES ($1) ON CONFLICT (peer_id) DO NOTHING;",
            args := [SqlArg.str "p1"] },
        { query :=
            "WITH input_rows(tx_hash, peer_id, tx_first_seen, time) AS (\n\t\tVALUES " ++
            "('0xab', 'p1', 5, 5),('0xcd', 'p1', 6, 6)" ++
            "\n\t)\n\tINSERT INTO tx_summary (tx_hash, peer_id, tx_first_seen, time)\n\tSELECT input_rows.tx_hash, input_rows.peer_id, input_rows.tx_first_seen, input_rows.time\n\tFROM input_rows\n\tON CONFLICT (tx_hash, peer_id, tx_first_seen) DO NOTHING;",
          args := [] }] :=
  ((store_summary_registers_then_batches demoEnv initWorld
    [{ tx_hash := "0xab", tx_first_seen := 5 }, { tx_hash := "0xcd", tx_first_seen := 6 }]
    "p1" (by simp)).2.1 rfl).trans rfl

/-- StoreTxSummary always sends at least the registration. -/
theorem StoreTxSummary_calls_ne (env : Env) (w : World) (txs : List TxSummaryTransaction)
    (peerID : String) : (StoreTxSummary env w txs peerID).calls ≠ w.calls := by
  cases hreg : env.exec w.calls (registerPeer peerID) with
  | none => simp [StoreTxSummary, dbExec, hreg]
  | some e => simp [StoreTxSummary, dbExec, hreg]

theorem prepareTransactions_summary_length (env : Env) (w : World) (txs : List Transaction) :
    (prepareTransactions env w txs).2.1.length = txs.length := by
  have := congrArg List.length (prepareTransactions_summary_hashes env txs w)
  simpa using this

/-- C10: with dry-run off, HandleTxs hands the sightings to StoreTxSummary exactly when
prepareTransactions returned no detail record and at least one sighting, that is for a
non-empty batch without newly seen transaction; otherwise it makes no storage call at all, so
whenever detail records exist nothing is stored and no detail record reaches the storage.
The returned error is nil in every case, whatever the storage answers. -/
theorem handleTxs_stores_only_without_details (env : Env) (w : World) (txs : List Transaction)
    (peerID : String) (hdry : env.mock_plague ≠ "true") :
    (HandleTxs env w txs peerID).1 = none ∧
    (((prepareTransactions env w txs).1 = [] ∧ (prepareTransactions env w txs).2.1 ≠ []) →
      (HandleTxs env w txs peerID).2 =
        StoreTxSummary env (prepareTransactions env w txs).2.2
          (prepareTransactions env w txs).2.1 peerID) ∧
    (¬ ((prepareTransactions env w txs).1 = [] ∧ (prepareTransactions env w txs).2.1 ≠ []) →
      (HandleTxs env w txs peerID).2 = (prepareTransactions env w txs).2.2 ∧
      (HandleTxs env w txs peerID).2.calls = w.calls) ∧
    ((HandleTxs env w txs peerID).2.calls ≠ w.calls ↔
      ((prepareTransactions env w txs).1 = [] ∧ (prepareTransactions env w txs).2.1 ≠ [])) ∧
    (((prepareTransactions env w txs).1 = [] ∧ (prepareTransactions env w txs).2.1 ≠ []) ↔
      (txs ≠ [] ∧ (prepareTransactions env w txs).1 = [])) ∧
    ((prepareTransactions env w txs).1 ≠ [] → (HandleTxs env w txs peerID).2.calls = w.calls) := by
  have hlen := prepareTransactions_summary_length env w txs
  have hcalls := prepareTransactions_calls env txs w
  have hs : (prepareTransactions env w txs).2.1 ≠ [] ↔ txs ≠ [] := by
    rw [← List.length_pos, ← List.length_pos, hlen]
  by_cases hp : (prepareTransactions env w txs).1 = []
  · by_cases ht : txs = []
    · subst ht
      simp [HandleTxs, hdry, prepareTransactions_nil]
    · have hs2 : (prepareTransactions env w txs).2.1 ≠ [] := hs.mpr ht
      have hpos : 0 < (prepareTransactions env w txs).2.1.length := List.length_pos.mpr hs2
      have hne0 : (prepareTransactions env w txs).2.1.length ≠ 0 := by omega
      have hstore := StoreTxSummary_calls_ne env (prepareTransactions env w txs).2.2
        (prepareTransactions env w txs).2.1 peerID
      rw [hcalls] at hstore
      simp [HandleTxs, hdry, hp, hs2, ht, hpos, hne0, hstore]
  · have hl : (prepareTransactions env w txs).1.length ≠ 0 := by
      simpa using hp
    simp [HandleTxs, hdry, hp, hl, hcalls]

/-- C10 for a batch of one transfer whose hash the cache holds: no detail record, one
sighting, and the sightings go to StoreTxSummary. -/
theorem handleTxs_stores_only_without_details_witness :
    (HandleTxs demoEnv cachedWorld [sampleTx 2] "p1").1 = none ∧
    (HandleTxs demoEnv cachedWorld [sampleTx 2] "p1").2 =
      StoreTxSummary demoEnv (prepareTransactions demoEnv cachedWorld [sampleTx 2]).2.2
        (prepareTransactions demoEnv cachedWorld [sampleTx 2]).2.1 "p1" :=
  have h := handleTxs_stores_only_without_details demoEnv cachedWorld [sampleTx 2] "p1"
    (by decide)
  ⟨h.1, h.2.1 (by decide)⟩

/-! ## The cache, seen through `lookup` -/

theorem lookup_cons (e : Entry) (l : List Entry) (k : String) :
    LRU.lookup (e :: l) k = if e.key = k then some e else LRU.lookup l k := by
  by_cases h : e.key = k
  · simp [LRU.lookup, h]
  · have hb : (e.key == k) = false := by simpa using h
    simp [LRU.lookup, List.find?_cons, hb, h]

theorem lookup_key {l : List Entry} {k : String} {e : Entry}
    (h : LRU.lookup l k = some e) : e.key = k := by
  have := List.find?_some h
  simpa using this

theorem lookup_mem {l : List Entry} {k : String} {e : Entry}
    (h : LRU.lookup l k = some e) : e ∈ l :=
  List.mem_of_find?_eq_some h

theorem lookup_filter_ne (l : List Entry) (h k : String) :
    LRU.lookup (l.filter (fun e => e.key != h)) k =
      if k = h then none else LRU.lookup l k := by
  induction l with
  | nil => simp [LRU.lookup]
  | cons e l ih =>
    by_cases he : e.key = h
    · have : (e.key != h) = false := by simp [he]
      rw [List.filter_cons_of_neg (by simp [he]), ih, lookup_cons]
      by_cases hk : k = h
      · simp [hk]
      · have : ¬ e.key = k := by rw [he]; exact fun h2 => hk h2.symm
        simp [hk, this]
    · rw [List.filter_cons_of_pos (by simp [he]), lookup_cons, lookup_cons, ih]
      by_cases hk : k = h
      · have : ¬ e.key = k := by rw [hk]; exact he
        simp [hk, he]
      · simp [hk]

theorem lookup_dropLast {l : List Entry} {k : String} {e : Entry}
    (h : LRU.lookup l.dropLast k = some e) : LRU.lookup l k = some e := by
  obtain ⟨t, ht⟩ := List.dropLast_prefix l
  have : LRU.lookup (l.dropLast ++ t) k = some e := by
    simp only [LRU.lookup, List.find?_append]
    simp only [LRU.lookup] at h
    rw [h]
    rfl
  rwa [ht] at this

/-- `Get` never changes what is stored under any key. -/
theorem Get_lookup (c : LRU) (now : Nat) (key k : String) :
    LRU.lookup (c.Get now key).2.evictList k = LRU.lookup c.evictList k := by
  simp only [LRU.Get]
  cases hl : LRU.lookup c.evictList key with
  | none => rfl
  | some ent =>
    by_cases hexp : ent.expiresAt < now
    · simp [hexp]
    · simp only [hexp, if_false]
      rw [lookup_cons, lookup_filter_ne, lookup_key hl]
      by_cases hk : key = k
      · simp [hk, ← hl]
      · have : ¬ k = key := fun h => hk h.symm
        simp [hk, this]

theorem Get_size (c : LRU) (now : Nat) (key : String) : (c.Get now key).2.size = c.size := by
  simp only [LRU.Get]
  split
  · split <;> rfl
  · rfl

theorem Get_ttl (c : LRU) (now : Nat) (key : String) : (c.Get now key).2.ttl = c.ttl := by
  simp only [LRU.Get]
  split
  · split <;> rfl
  · rfl

theorem Get_length (c : LRU) (now : Nat) (key : String) :
    (c.Get now key).2.evictList.length ≤ c.evictList.length := by
  simp only [LRU.Get]
  cases hl : LRU.lookup c.evictList key with
  | none => exact le_rfl
  | some ent =>
    by_cases hexp : ent.expiresAt < now
    · simp [hexp]
    · simp only [hexp, if_false, List.length_cons]
      have hmem := lookup_mem hl
      have hk := lookup_key hl
      have : (c.evictList.filter (fun e => e.key != key)).length < c.evictList.length := by
        apply List.length_filter_lt_length_iff_exists.mpr
        exact ⟨ent, hmem, by simp [hk]⟩
      omega

/-- `Get` leaves the cache as it is when it misses. -/
theorem Get_miss (c : LRU) (now : Nat) (key : String) (h : c.contains now key = false) :
    (c.Get now key).2 = c := by
  simp only [LRU.contains, LRU.Get] at h ⊢
  split
  · rename_i ent hl
    rw [hl] at h
    by_cases hexp : ent.expiresAt < now
    · simp [hexp]
    · simp [hexp] at h
  · rfl

theorem contains_iff (c : LRU) (now : Nat) (key : String) :
    c.contains now key = true ↔
      ∃ e, LRU.lookup c.evictList key = some e ∧ ¬ e.expiresAt < now := by
  simp only [LRU.contains, LRU.Get]
  cases hl : LRU.lookup c.evictList key with
  | none => simp
  | some ent =>
    by_cases hexp : ent.expiresAt < now
    · simp [hexp]
    · simp [hexp]
      omega

theorem Add_size (c : LRU) (now : Nat) (key value : String) :
    (c.Add now key value).2.size = c.size := by
  simp only [LRU.Add]
  split
  · rfl
  · split <;> rfl

theorem Add_ttl (c : LRU) (now : Nat) (key value : String) :
    (c.Add now key value).2.ttl = c.ttl := by
  simp only [LRU.Add]
  split
  · rfl
  · split <;> rfl

theorem Add_length (c : LRU) (now : Nat) (key value : String) :
    (c.Add now key value).2.evictList.length ≤ c.evictList.length + 1 := by
  simp only [LRU.Add]
  split
  · simp only [List.length_cons]
    have := List.length_filter_le (fun e : Entry => e.key != key) c.evictList
    omega
  · split
    · simp
    · simp

/-- What is stored under the added key right after `Add`. -/
theorem Add_lookup_self (c : LRU) (now : Nat) (key value : String) :
    LRU.lookup (c.Add now key value).2.evictList key =
      some { key := key, value := value, expiresAt := now + c.ttl } := by
  simp only [LRU.Add]
  split
  · simp [lookup_cons]
  · split
    · rename_i hev
      cases hc : c.evictList with
      | nil => simp [hc] at hev; omega
      | cons e l => simp [lookup_cons]
    · simp [lookup_cons]

/-- An entry found under another key after `Add` was there before. -/
theorem Add_lookup_other {c : LRU} {now : Nat} {key value k : String} {e : Entry}
    (hk : k ≠ key) (h : LRU.lookup (c.Add now key value).2.evictList k = some e) :
    LRU.lookup c.evictList k = some e := by
  simp only [LRU.Add] at h
  split at h
  · simp only [lookup_cons, lookup_filter_ne] at h
    have : ¬ key = k := fun h2 => hk h2.symm
    simpa [this, hk] using h
  · split at h
    · have h2 := lookup_dropLast h
      rw [lookup_cons] at h2
      have : ¬ key = k := fun h3 => hk h3.symm
      simpa [this] using h2
    · rw [lookup_cons] at h
      have : ¬ key = k := fun h3 => hk h3.symm
      simpa [this] using h

/-- When there is room, `Add` changes nothing under the other keys. -/
theorem Add_lookup_room (c : LRU) (now : Nat) (key value k : String)
    (hroom : c.size = 0 ∨ c.evictList.length + 1 ≤ c.size) (hk : k ≠ key) :
    LRU.lookup (c.Add now key value).2.evictList k = LRU.lookup c.evictList k := by
  have hkk : ¬ key = k := fun h2 => hk h2.symm
  simp only [LRU.Add]
  split
  · simp [lookup_cons, lookup_filter_ne, hkk, hk]
  · have : ¬ (0 < c.size ∧ c.size < (c.evictList.length + 1)) := by omega
    simp [this, lookup_cons, hkk]

/-! ## One iteration of the loop, on the state -/

theorem prepareStep_world_hit (env : Env) (w : World) (tx : Transaction)
    (h : w.cache.contains (env.clock (w.tick + 1)) tx.hash.Hex = true) :
    (prepareStep env ([], [], w) tx).2.2 =
      { tick := w.tick + 2, cache := (w.cache.Get (env.clock (w.tick + 1)) tx.hash.Hex).2,
        calls := w.calls } := by
  have hg : (cacheGet env { w with tick := w.tick + 1 } tx.hash.Hex).1.isSome = true := by
    simpa [LRU.contains, cacheGet] using h
  obtain ⟨e, he, _⟩ := (contains_iff _ _ _).mp h
  simp only [prepareStep]
  split
  · simp [cacheGet, he]
  · rename_i hv
    rw [hv] at hg
    cases hg

theorem prepareStep_world_miss (env : Env) (w : World) (tx : Transaction)
    (h : w.cache.contains (env.clock (w.tick + 1)) tx.hash.Hex = false) :
    ∃ t, (t = w.tick + 1 ∨ t = w.tick + 2) ∧
      (prepareStep env ([], [], w) tx).2.2 =
        { tick := t + 1, cache := (w.cache.Add (env.clock t) tx.hash.Hex tx.hash.Hex).2,
          calls := w.calls } := by
  have hg : (cacheGet env { w with tick := w.tick + 1 } tx.hash.Hex).1 = none := by
    simpa [LRU.contains, cacheGet] using h
  have hm := Get_miss _ _ _ h
  simp only [prepareStep]
  split
  · rename_i v hv
    rw [hg] at hv
    cases hv
  · cases hl : LRU.lookup w.cache.evictList tx.hash.Hex with
    | none =>
      refine ⟨w.tick + 1, Or.inl rfl, ?_⟩
      simp [cacheGet, cacheAdd, hl, hm]
    | some e =>
      refine ⟨w.tick + 2, Or.inr rfl, ?_⟩
      simp [cacheGet, cacheAdd, hl, hm]

/-! ## Batches without eviction or expiry -/

theorem tracks_contains {env : Env} {c0 : LRU} {t0 T : Nat} {added : List String} {w : World}
    (htr : Tracks env c0 t0 added w) (hexp : NoExpiry env c0 t0 T) (hT : w.tick ≤ T)
    (j : Nat) (hj0 : t0 ≤ j) (hjT : j < T) (k : String) :
    w.cache.contains (env.clock j) k = true ↔
      k ∈ added ∨ c0.contains (env.clock t0) k = true := by
  by_cases hk : k ∈ added
  · obtain ⟨e, i, hl, hi0, hiw, hexq⟩ := htr.fresh k hk
    have hle := hexp.1 i j hi0 (by omega) hj0 hjT
    simp only [hk, true_or, iff_true]
    rw [contains_iff]
    exact ⟨e, hl, by omega⟩
  · simp only [hk, false_or]
    rw [contains_iff, contains_iff, htr.old k hk]
    constructor
    · rintro ⟨e, hl, hne⟩
      exact ⟨e, hl, fun h => hne ((hexp.2 e (lookup_mem hl) j hj0 hjT).mpr h)⟩
    · rintro ⟨e, hl, hne⟩
      exact ⟨e, hl, fun h => hne ((hexp.2 e (lookup_mem hl) j hj0 hjT).mp h)⟩

theorem tracks_step_hit {env : Env} {c0 : LRU} {t0 : Nat} {added : List String} {w : World}
    (htr : Tracks env c0 t0 added w) (tx : Transaction)
    (h : w.cache.contains (env.clock (w.tick + 1)) tx.hash.Hex = true) :
    Tracks env c0 t0 added (prepareStep env ([], [], w) tx).2.2 := by
  rw [prepareStep_world_hit env w tx h]
  refine ⟨?_, ?_, ?_, ?_, ?_, ?_⟩
  · simp only [Get_size]; exact htr.size_eq
  · simp only [Get_ttl]; exact htr.ttl_eq
  · have := htr.tick_ge
    simp only
    omega
  · exact le_trans (Get_length _ _ _) htr.length_le
  · intro k hk
    obtain ⟨e, i, hl, hi0, hiw, hexq⟩ := htr.fresh k hk
    refine ⟨e, i, ?_, hi0, ?_, hexq⟩
    · simp only [Get_lookup]; exact hl
    · simp only; omega
  · intro k hk
    simp only [Get_lookup]
    exact htr.old k hk

theorem tracks_step_miss {env : Env} {c0 : LRU} {t0 : Nat} {added : List String} {w : World}
    (htr : Tracks env c0 t0 added w) (tx : Transaction)
    (hroom : NoEviction c0 (added.length + 1))
    (h : w.cache.contains (env.clock (w.tick + 1)) tx.hash.Hex = false) :
    Tracks env c0 t0 (tx.hash.Hex :: added) (prepareStep env ([], [], w) tx).2.2 := by
  obtain ⟨t, ht, hw⟩ := prepareStep_world_miss env w tx h
  rw [hw]
  have hroomw : w.cache.size = 0 ∨ w.cache.evictList.length + 1 ≤ w.cache.size := by
    have h1 := htr.size_eq
    have h2 := htr.length_le
    rcases hroom with h0 | h0
    · left; omega
    · right; omega
  have htick := htr.tick_ge
  refine ⟨?_, ?_, ?_, ?_, ?_, ?_⟩
  · simp only [Add_size]; exact htr.size_eq
  · simp only [Add_ttl]; exact htr.ttl_eq
  · simp only
    omega
  · have := Add_length w.cache (env.clock t) tx.hash.Hex tx.hash.Hex
    have := htr.length_le
    simp only [List.length_cons]
    omega
  · intro k hk
    by_cases hkk : k = tx.hash.Hex
    · subst hkk
      refine ⟨_, t, Add_lookup_self _ _ _ _, by omega, by simp only; omega, ?_⟩
      simp only [htr.ttl_eq]
    · have hk2 : k ∈ added := by
        rcases List.mem_cons.mp hk with h1 | h1
        · exact absurd h1 hkk
        · exact h1
      obtain ⟨e, i, hl, hi0, hiw, hexq⟩ := htr.fresh k hk2
      refine ⟨e, i, ?_, hi0, by simp only; omega, hexq⟩
      simp only [Add_lookup_room _ _ _ _ _ hroomw hkk]
      exact hl
  · intro k hk
    have hkk : k ≠ tx.hash.Hex := fun h1 => hk (h1 ▸ List.mem_cons_self _ _)
    have hk2 : k ∉ added := fun h1 => hk (List.mem_cons_of_mem _ h1)
    simp only [Add_lookup_room _ _ _ _ _ hroomw hkk]
    exact htr.old k hk2

theorem prepareStep_tick_le (env : Env) (w : World) (tx : Transaction) :
    (prepareStep env ([], [], w) tx).2.2.tick ≤ w.tick + 3 := by
  cases h : w.cache.contains (env.clock (w.tick + 1)) tx.hash.Hex with
  | true => rw [prepareStep_world_hit env w tx h]; simp
  | false =>
    obtain ⟨t, ht, hw⟩ := prepareStep_world_miss env w tx h
    rw [hw]
    simp only
    omega

theorem prepareTransactions_tick_le (env : Env) (txs : List Transaction) :
    ∀ w : World, (prepareTransactions env w txs).2.2.tick ≤ w.tick + 3 * txs.length := by
  induction txs with
  | nil => intro w; simp [prepareTransactions_nil]
  | cons tx txs ih =>
    intro w
    rw [prepareTransactions_cons]
    have h1 := prepareStep_tick_le env w tx
    have h2 := ih (prepareStep env ([], [], w) tx).2.2
    simp only [List.length_cons]
    omega

/-! ## The text of a hash determines the hash -/

theorem digitChar_inj {x y : Nat} (hx : x < 16) (hy : y < 16)
    (h : Nat.digitChar x = Nat.digitChar y) : x = y := by
  have key : ∀ a : Fin 16, ∀ b : Fin 16, Nat.digitChar a.val = Nat.digitChar b.val → a = b := by
    decide
  have := key ⟨x, hx⟩ ⟨y, hy⟩ h
  exact congrArg Fin.val this

theorem hexEncode_injective : ∀ a b : List (Fin 256), hexEncode a = hexEncode b → a = b := by
  intro a
  induction a with
  | nil =>
    intro b h
    cases b with
    | nil => rfl
    | cons y ys => simp [hexEncode] at h
  | cons x xs ih =>
    intro b h
    cases b with
    | nil => simp [hexEncode] at h
    | cons y ys =>
      simp only [hexEncode, List.cons.injEq] at h
      obtain ⟨h1, h2, h3⟩ := h
      have hx := x.isLt
      have hy := y.isLt
      have d1 := digitChar_inj (by omega) (by omega) h1
      have d2 := digitChar_inj (Nat.mod_lt _ (by decide)) (Nat.mod_lt _ (by decide)) h2
      have hxy : x = y := by
        apply Fin.ext
        omega
      rw [hxy, ih ys h3]

theorem Hash_Hex_injective : Function.Injective Hash.Hex := by
  intro a b h
  have hd := congrArg String.data h
  simp only [Hash.Hex, List.cons.injEq, true_and] at hd
  have := hexEncode_injective _ _ hd
  cases a
  cases b
  simp only [Hash.mk.injEq]
  exact this

theorem mem_map_Hex_iff (h : Hash) (seen : List Hash) :
    h.Hex ∈ seen.map Hash.Hex ↔ h ∈ seen :=
  List.mem_map_of_injective Hash_Hex_injective

/-! ## Which transactions get a detail record -/

theorem NoEviction.mono {c : LRU} {n m : Nat} (h : NoEviction c n) (hm : m ≤ n) :
    NoEviction c m := by
  rcases h with h | h
  · exact Or.inl h
  · exact Or.inr (by omega)

/-- The detail records of a batch processed without eviction or expiry are those of the
transactions the spec selects, and the final state still tracks the initial cache. -/
theorem prepare_tracks (env : Env) (c0 : LRU) (t0 T N : Nat) (hexp : NoExpiry env c0 t0 T)
    (hroom : NoEviction c0 N) :
    ∀ (txs : List Transaction) (seen : List Hash) (w : World),
      Tracks env c0 t0 (seen.map Hash.Hex) w → w.tick + 3 * txs.length ≤ T →
      seen.length +
        (firstUncached (fun h => c0.contains (env.clock t0) h.Hex) seen txs).length ≤ N →
      List.Forall₂ (fun p tx => ∃ ts, p = detailRecord env tx ts)
        (prepareTransactions env w txs).1
        (firstUncached (fun h => c0.contains (env.clock t0) h.Hex) seen txs) ∧
      ∃ seen2 : List Hash,
        Tracks env c0 t0 (seen2.map Hash.Hex) (prepareTransactions env w txs).2.2 ∧
        ∀ h, h ∈ seen2 ↔
          h ∈ seen ∨ (h ∈ txs.map (fun tx => tx.hash) ∧
            c0.contains (env.clock t0) h.Hex = false) := by
  intro txs
  induction txs with
  | nil =>
    intro seen w htr _ _
    refine ⟨?_, seen, htr, ?_⟩
    · simp only [prepareTransactions_nil, firstUncached]
      exact List.Forall₂.nil
    · intro h; simp
  | cons tx txs ih =>
    intro seen w htr hT hN
    simp only [List.length_cons] at hT
    have hc := tracks_contains htr hexp (by omega) (w.tick + 1)
      (by have := htr.tick_ge; omega) (by omega) tx.hash.Hex
    rw [mem_map_Hex_iff] at hc
    have htick := prepareStep_tick_le env w tx
    rw [prepareTransactions_cons]
    cases hcon : w.cache.contains (env.clock (w.tick + 1)) tx.hash.Hex with
    | true =>
      have hsel : c0.contains (env.clock t0) tx.hash.Hex = true ∨ tx.hash ∈ seen := by
        rcases hc.mp hcon with h1 | h1
        · exact Or.inr h1
        · exact Or.inl h1
      simp only [firstUncached, hsel, if_true] at hN
      obtain ⟨hf, seen2, htr2, hseen2⟩ := ih seen _ (tracks_step_hit htr tx hcon)
        (by omega) hN
      refine ⟨?_, seen2, htr2, ?_⟩
      · rw [prepareStep_hit env w tx hcon]
        simp only [firstUncached, hsel, if_true, List.nil_append]
        exact hf
      · intro h
        rw [hseen2 h]
        simp only [List.map_cons, List.mem_cons]
        constructor
        · rintro (h1 | ⟨h1, h2⟩)
          · exact Or.inl h1
          · exact Or.inr ⟨Or.inr h1, h2⟩
        · rintro (h1 | ⟨h1 | h1, h2⟩)
          · exact Or.inl h1
          · subst h1
            rcases hsel with h3 | h3
            · rw [h3] at h2; cases h2
            · exact Or.inl h3
          · exact Or.inr ⟨h1, h2⟩
    | false =>
      have hsel : ¬ (c0.contains (env.clock t0) tx.hash.Hex = true ∨ tx.hash ∈ seen) := by
        intro h1
        have : w.cache.contains (env.clock (w.tick + 1)) tx.hash.Hex = true := by
          apply hc.mpr
          rcases h1 with h1 | h1
          · exact Or.inr h1
          · exact Or.inl h1
        rw [hcon] at this
        cases this
      simp only [firstUncached, hsel, if_false, List.length_cons] at hN
      have htr1 : Tracks env c0 t0 ((tx.hash :: seen).map Hash.Hex)
          (prepareStep env ([], [], w) tx).2.2 := by
        have := tracks_step_miss htr tx (hroom.mono (by simp only [List.length_map]; omega)) hcon
        simpa using this
      obtain ⟨hf, seen2, htr2, hseen2⟩ := ih (tx.hash :: seen) _ htr1 (by omega)
        (by simp only [List.length_cons]; omega)
      refine ⟨?_, seen2, htr2, ?_⟩
      · rw [prepareStep_miss env w tx hcon]
        simp only [firstUncached, hsel, if_false, List.singleton_append]
        exact List.Forall₂.cons ⟨_, rfl⟩ hf
      · intro h
        rw [hseen2 h]
        simp only [List.map_cons, List.mem_cons]
        have hunc : c0.contains (env.clock t0) tx.hash.Hex = false := by
          cases hv : c0.contains (env.clock t0) tx.hash.Hex with
          | true => exact absurd (Or.inl hv) hsel
          | false => rfl
        constructor
        · rintro ((h1 | h1) | ⟨h1, h2⟩)
          · subst h1
            exact Or.inr ⟨Or.inl rfl, hunc⟩
          · exact Or.inl h1
          · exact Or.inr ⟨Or.inr h1, h2⟩
        · rintro (h1 | ⟨h1 | h1, h2⟩)
          · exact Or.inl (Or.inr h1)
          · exact Or.inl (Or.inl h1)
          · exact Or.inr ⟨h1, h2⟩

theorem tracks_init (env : Env) (w : World) : Tracks env w.cache w.tick [] w :=
  ⟨rfl, rfl, le_rfl, by simp, by simp, by simp⟩

theorem firstUncached_spec (cached : Hash → Bool) (txs : List Transaction) :
    ∀ seen : List Hash,
      ((firstUncached cached seen txs).map (fun tx => tx.hash)).Nodup ∧
      ∀ tx ∈ firstUncached cached seen txs, cached tx.hash = false ∧ tx.hash ∉ seen := by
  induction txs with
  | nil => intro seen; simp [firstUncached]
  | cons tx txs ih =>
    intro seen
    by_cases hsel : cached tx.hash = true ∨ tx.hash ∈ seen
    · simp only [firstUncached, hsel, if_true]
      exact ih seen
    · simp only [firstUncached, hsel, if_false]
      obtain ⟨hnd, hall⟩ := ih (tx.hash :: seen)
      constructor
      · simp only [List.map_cons, List.nodup_cons]
        refine ⟨?_, hnd⟩
        intro hm
        obtain ⟨tx2, htx2, heq⟩ := List.mem_map.mp hm
        have := (hall tx2 htx2).2
        exact this (by simp [heq])
      · intro tx2 htx2
        rcases List.mem_cons.mp htx2 with h1 | h1
        · subst h1
          constructor
          · cases hv : cached tx2.hash with
            | true => exact absurd (Or.inl hv) hsel
            | false => rfl
          · exact fun h2 => hsel (Or.inr h2)
        · have := hall tx2 h1
          exact ⟨this.1, fun h2 => this.2 (List.mem_cons_of_mem _ h2)⟩

theorem firstUncached_length_le (cached : Hash → Bool) (txs : List Transaction) :
    ∀ seen : List Hash, (firstUncached cached seen txs).length ≤ txs.length := by
  induction txs with
  | nil => intro seen; simp [firstUncached]
  | cons tx txs ih =>
    intro seen
    by_cases hsel : cached tx.hash = true ∨ tx.hash ∈ seen
    · simp only [firstUncached, hsel, if_true, List.length_cons]
      exact le_trans (ih seen) (Nat.le_succ _)
    · simp only [firstUncached, hsel, if_false, List.length_cons]
      exact Nat.succ_le_succ (ih _)

theorem detail_hashes_of_forall2 {env : Env} {ps : List PreparedTransaction}
    {sel : List Transaction}
    (h : List.Forall₂ (fun p tx => ∃ ts, p = detailRecord env tx ts) ps sel) :
    ps.map (fun p => p.tx_hash) = (sel.map (fun tx => tx.hash)).map Hash.Hex := by
  induction h with
  | nil => rfl
  | cons hp _ ih =>
    obtain ⟨ts, rfl⟩ := hp
    simp only [List.map_cons, ih]
    rfl

/-- C4: when nothing expires and nothing is evicted during the call, the detail records
returned by prepareTransactions are, in input order, those of the first occurrence of each
hash that was not in the cache when the call started; so no two detail records carry the same
hash, and none carries a hash that was in the cache. -/
theorem details_for_first_uncached_occurrences (env : Env) (w : World) (txs : List Transaction)
    (hexp : NoExpiry env w.cache w.tick (w.tick + 3 * txs.length))
    (hroom : NoEviction w.cache
      (firstUncached (fun h => w.cache.contains (env.clock w.tick) h.Hex) [] txs).length) :
    List.Forall₂ (fun p tx => ∃ ts, p = detailRecord env tx ts)
      (prepareTransactions env w txs).1
      (firstUncached (fun h => w.cache.contains (env.clock w.tick) h.Hex) [] txs) ∧
    ((prepareTransactions env w txs).1.map (fun p => p.tx_hash)).Nodup ∧
    ∀ p ∈ (prepareTransactions env w txs).1, ∀ h : Hash, p.tx_hash = h.Hex →
      w.cache.contains (env.clock w.tick) h.Hex = false := by
  obtain ⟨hf, -⟩ := prepare_tracks env w.cache w.tick (w.tick + 3 * txs.length) _
    hexp hroom txs [] w (tracks_init env w) le_rfl (by simp)
  have hspec := firstUncached_spec (fun h => w.cache.contains (env.clock w.tick) h.Hex) txs []
  have hh := detail_hashes_of_forall2 hf
  refine ⟨hf, ?_, ?_⟩
  · rw [hh]
    exact hspec.1.map Hash_Hex_injective
  · intro p hp h hph
    have : p.tx_hash ∈ (prepareTransactions env w txs).1.map (fun p => p.tx_hash) :=
      List.mem_map_of_mem _ hp
    rw [hh, List.map_map] at this
    obtain ⟨tx, htx, heq⟩ := List.mem_map.mp this
    have hxh : tx.hash = h := Hash_Hex_injective (by simpa using heq.trans hph)
    rw [← hxh]
    exact (hspec.2 tx htx).1

/-- C4 for a batch that repeats a transfer and contains one the cache holds. -/
theorem details_for_first_uncached_occurrences_witness :
    ((prepareTransactions demoEnv cachedWorld
      [sampleTx 1, sampleTx 2, sampleTx 1, sampleTx 3]).1.map (fun p => p.tx_hash)).Nodup ∧
    ∀ p ∈ (prepareTransactions demoEnv cachedWorld
        [sampleTx 1, sampleTx 2, sampleTx 1, sampleTx 3]).1, ∀ h : Hash, p.tx_hash = h.Hex →
      cachedWorld.cache.contains (demoEnv.clock cachedWorld.tick) h.Hex = false :=
  (details_for_first_uncached_occurrences demoEnv cachedWorld
    [sampleTx 1, sampleTx 2, sampleTx 1, sampleTx 3]
    ⟨by
      intro i j _ hi _ hj
      simp only [demoEnv, cachedWorld, initCache, List.length_cons, List.length_nil] at hi hj ⊢
      omega,
     by
      intro e he j _ hj
      simp only [cachedWorld, List.mem_singleton, List.length_cons, List.length_nil] at he hj
      subst he
      simp only [demoEnv, cachedWorld]
      omega⟩
    (Or.inr (le_trans (Nat.add_le_add_left (firstUncached_length_le _ _ _) _) (by decide)))).2

/-! ## Batches of distinct hashes the cache does not have -/

theorem forgets_init (w : World) : Forgets w.cache w.tick [] w :=
  ⟨le_rfl, fun _ _ _ h => h⟩

theorem fronts_init (env : Env) (w : World) : Fronts env w.cache w.tick [] w :=
  ⟨rfl, rfl, [], w.cache.evictList, rfl, rfl, by simp⟩

/-- A key outside `done` that the initial cache does not have is missed. -/
theorem forgets_miss {c0 : LRU} {t0 : Nat} {done : List String} {w : World}
    (hfg : Forgets c0 t0 done w) (now : Nat) (k : String) (hk : k ∉ done)
    (hdead : c0.contains now k = false) : w.cache.contains now k = false := by
  cases hv : w.cache.contains now k with
  | false => rfl
  | true =>
    obtain ⟨e, hl, hne⟩ := (contains_iff _ _ _).mp hv
    have : c0.contains now k = true := (contains_iff _ _ _).mpr ⟨e, hfg.sub k hk e hl, hne⟩
    rw [hdead] at this
    cases this

theorem forgets_step_miss {c0 : LRU} {t0 : Nat} {done : List String} {w : World}
    (env : Env) (hfg : Forgets c0 t0 done w) (tx : Transaction)
    (h : w.cache.contains (env.clock (w.tick + 1)) tx.hash.Hex = false) :
    Forgets c0 t0 (tx.hash.Hex :: done) (prepareStep env ([], [], w) tx).2.2 := by
  obtain ⟨t, ht, hw⟩ := prepareStep_world_miss env w tx h
  rw [hw]
  have := hfg.tick_ge
  refine ⟨by simp only; omega, ?_⟩
  intro k hk e hl
  have hkk : k ≠ tx.hash.Hex := fun h1 => hk (h1 ▸ List.mem_cons_self _ _)
  have hk2 : k ∉ done := fun h1 => hk (List.mem_cons_of_mem _ h1)
  exact hfg.sub k hk2 e (Add_lookup_other hkk hl)

theorem filter_ne_of_keys {fresh : List Entry} {k : String}
    (hk : k ∉ fresh.map (fun e => e.key)) :
    fresh.filter (fun e => e.key != k) = fresh := by
  apply List.filter_eq_self.mpr
  intro e he
  have : e.key ≠ k := fun h => hk (h ▸ List.mem_map_of_mem (fun e => e.key) he)
  simpa using this

theorem fronts_step_miss {env : Env} {c0 : LRU} {t0 : Nat} {done : List String} {w : World}
    (hfr : Fronts env c0 t0 done w) (htick : t0 ≤ w.tick) (tx : Transaction)
    (hk : tx.hash.Hex ∉ done) (hcap : c0.size = 0 ∨ done.length + 1 ≤ c0.size)
    (h : w.cache.contains (env.clock (w.tick + 1)) tx.hash.Hex = false) :
    Fronts env c0 t0 (tx.hash.Hex :: done) (prepareStep env ([], [], w) tx).2.2 := by
  obtain ⟨t, ht, hw⟩ := prepareStep_world_miss env w tx h
  rw [hw]
  obtain ⟨fresh, rest, hlist, hkeys, hstamp⟩ := hfr.front
  have hsz := hfr.size_eq
  have httl := hfr.ttl_eq
  have hlen : fresh.length = done.length := by rw [← hkeys, List.length_map]
  have hknot : tx.hash.Hex ∉ fresh.map (fun e => e.key) := by rw [hkeys]; exact hk
  have hstamp2 : ∀ e ∈ (Entry.mk tx.hash.Hex tx.hash.Hex (env.clock t + w.cache.ttl) :: fresh),
      ∃ i, t0 ≤ i ∧ i < t + 1 ∧ e.expiresAt = env.clock i + c0.ttl := by
    intro e he
    rcases List.mem_cons.mp he with h1 | h1
    · exact ⟨t, by omega, by omega, by rw [h1, httl]⟩
    · obtain ⟨i, hi0, hiw, hexq⟩ := hstamp e h1
      exact ⟨i, hi0, by omega, hexq⟩
  refine ⟨by simp only [Add_size]; exact hsz, by simp only [Add_ttl]; exact httl, ?_⟩
  simp only [LRU.Add]
  split
  · refine ⟨_ :: fresh, rest.filter (fun e => e.key != tx.hash.Hex), ?_, ?_, hstamp2⟩
    · simp only [hlist, List.filter_append, filter_ne_of_keys hknot, List.cons_append]
    · simp only [List.map_cons, hkeys]
  · split
    · rename_i hev
      have hrest : rest ≠ [] := by
        intro hr
        rw [hlist, hr] at hev
        simp only [List.append_nil, List.length_cons] at hev
        omega
      refine ⟨_ :: fresh, rest.dropLast, ?_, ?_, hstamp2⟩
      · simp only [hlist]
        rw [← List.cons_append, List.dropLast_append_of_ne_nil _ hrest]
      · simp only [List.map_cons, hkeys]
    · refine ⟨_ :: fresh, rest, ?_, ?_, hstamp2⟩
      · simp only [hlist, List.cons_append]
      · simp only [List.map_cons, hkeys]

theorem contains_false_mono {c : LRU} {a b : Nat} {k : String} (hab : a ≤ b)
    (h : c.contains a k = false) : c.contains b k = false := by
  cases hv : c.contains b k with
  | false => rfl
  | true =>
    obtain ⟨e, hl, hne⟩ := (contains_iff _ _ _).mp hv
    have : c.contains a k = true := (contains_iff _ _ _).mpr ⟨e, hl, by omega⟩
    rw [h] at this
    cases this

theorem fronts_lookup {env : Env} {c0 : LRU} {t0 : Nat} {done : List String} {w : World}
    (hfr : Fronts env c0 t0 done w) {k : String} (hk : k ∈ done) :
    ∃ e i, LRU.lookup w.cache.evictList k = some e ∧ t0 ≤ i ∧ i < w.tick ∧
      e.expiresAt = env.clock i + c0.ttl := by
  obtain ⟨fresh, rest, hlist, hkeys, hstamp⟩ := hfr.front
  rw [← hkeys] at hk
  obtain ⟨e0, he0, hke0⟩ := List.mem_map.mp hk
  have hsome : (fresh.find? (fun e => e.key == k)).isSome = true := by
    rw [List.find?_isSome]
    exact ⟨e0, he0, by simpa using hke0⟩
  obtain ⟨e, he⟩ := Option.isSome_iff_exists.mp hsome
  obtain ⟨i, hi0, hiw, hexq⟩ := hstamp e (List.mem_of_find?_eq_some he)
  refine ⟨e, i, ?_, hi0, hiw, hexq⟩
  simp only [LRU.lookup, hlist, List.find?_append, he]
  rfl

/-- Every transaction of a batch of distinct keys the cache does not have gets its detail
record; with room for the batch, its keys end up as the most recently used entries. -/
theorem prepare_distinct_uncached (env : Env) (c0 : LRU) (t0 T : Nat) :
    ∀ (txs : List Transaction) (done : List String) (w : World),
      Forgets c0 t0 done w →
      (∀ tx ∈ txs, tx.hash.Hex ∉ done) →
      (txs.map (fun tx => tx.hash.Hex)).Nodup →
      (∀ tx ∈ txs, ∀ j, t0 ≤ j → j < T → c0.contains (env.clock j) tx.hash.Hex = false) →
      w.tick + 3 * txs.length ≤ T →
      List.Forall₂ (fun p tx => ∃ ts, p = detailRecord env tx ts)
        (prepareTransactions env w txs).1 txs ∧
      Forgets c0 t0 ((txs.map (fun tx => tx.hash.Hex)).reverse ++ done)
        (prepareTransactions env w txs).2.2 ∧
      (Fronts env c0 t0 done w → (c0.size = 0 ∨ done.length + txs.length ≤ c0.size) →
        Fronts env c0 t0 ((txs.map (fun tx => tx.hash.Hex)).reverse ++ done)
          (prepareTransactions env w txs).2.2) := by
  intro txs
  induction txs with
  | nil =>
    intro done w hfg _ _ _ _
    simp only [prepareTransactions_nil, List.map_nil, List.reverse_nil, List.nil_append]
    exact ⟨List.Forall₂.nil, hfg, fun h _ => h⟩
  | cons tx txs ih =>
    intro done w hfg hnot hnd hdead hT
    simp only [List.length_cons] at hT
    have ht0 := hfg.tick_ge
    have hk : tx.hash.Hex ∉ done := hnot tx (List.mem_cons_self _ _)
    have hmiss : w.cache.contains (env.clock (w.tick + 1)) tx.hash.Hex = false :=
      forgets_miss hfg _ _ hk
        (hdead tx (List.mem_cons_self _ _) (w.tick + 1) (by omega) (by omega))
    have htick := prepareStep_tick_le env w tx
    simp only [List.map_cons, List.nodup_cons] at hnd
    have hnot2 : ∀ tx2 ∈ txs, tx2.hash.Hex ∉ tx.hash.Hex :: done := by
      intro tx2 h2 hm
      rcases List.mem_cons.mp hm with h3 | h3
      · exact hnd.1 (h3 ▸ List.mem_map_of_mem (fun tx => tx.hash.Hex) h2)
      · exact hnot tx2 (List.mem_cons_of_mem _ h2) h3
    obtain ⟨hf, hfg2, hfr2⟩ := ih (tx.hash.Hex :: done) _ (forgets_step_miss env hfg tx hmiss)
      hnot2 hnd.2 (fun tx2 h2 => hdead tx2 (List.mem_cons_of_mem _ h2)) (by omega)
    have hrev : (List.map (fun tx => tx.hash.Hex) (tx :: txs)).reverse ++ done =
        (List.map (fun tx => tx.hash.Hex) txs).reverse ++ tx.hash.Hex :: done := by
      simp
    rw [prepareTransactions_cons, hrev]
    refine ⟨?_, hfg2, ?_⟩
    · rw [prepareStep_miss env w tx hmiss]
      exact List.Forall₂.cons ⟨_, rfl⟩ hf
    · intro hfr hcap
      simp only [List.length_cons] at hcap
      apply hfr2 (fronts_step_miss hfr ht0 tx hk (by omega) hmiss)
      simp only [List.length_cons]
      omega

/-- A batch whose keys all hold an entry that is valid throughout yields no detail record. -/
theorem prepare_all_cached (env : Env) (T : Nat) :
    ∀ (txs : List Transaction) (w : World),
      (∀ tx ∈ txs, ∃ e, LRU.lookup w.cache.evictList tx.hash.Hex = some e ∧
        ∀ j, j < T → ¬ e.expiresAt < env.clock j) →
      w.tick + 3 * txs.length ≤ T →
      (prepareTransactions env w txs).1 = [] := by
  intro txs
  induction txs with
  | nil => intro w _ _; rfl
  | cons tx txs ih =>
    intro w hall hT
    simp only [List.length_cons] at hT
    obtain ⟨e, hl, hlive⟩ := hall tx (List.mem_cons_self _ _)
    have hhit : w.cache.contains (env.clock (w.tick + 1)) tx.hash.Hex = true :=
      (contains_iff _ _ _).mpr ⟨e, hl, hlive _ (by omega)⟩
    have htick := prepareStep_tick_le env w tx
    rw [prepareTransactions_cons, prepareStep_hit env w tx hhit, List.nil_append]
    apply ih
    · intro tx2 h2
      rw [prepareStep_world_hit env w tx hhit]
      simp only [Get_lookup]
      exact hall tx2 (List.mem_cons_of_mem _ h2)
    · omega

theorem nodup_keys_of_nodup_hashes {txs : List Transaction}
    (h : (txs.map (fun tx => tx.hash)).Nodup) : (txs.map (fun tx => tx.hash.Hex)).Nodup := by
  have := h.map Hash_Hex_injective
  simpa [List.map_map] using this

/-- C5: for a batch of N transactions with pairwise distinct hashes, none of them in the
cache, with N not above the capacity and both runs within the time-to-live of the first
reading, prepareTransactions yields N detail records and N sighting records on the first run
and no detail record and N sighting records on the second run. -/
theorem second_submission_yields_no_details (env : Env) (w : World) (txs : List Transaction)
    (hmono : Monotone env.clock)
    (hdistinct : (txs.map (fun tx => tx.hash)).Nodup)
    (huncached : ∀ tx ∈ txs, w.cache.contains (env.clock w.tick) tx.hash.Hex = false)
    (hcap : w.cache.size = 0 ∨ txs.length ≤ w.cache.size)
    (httl : env.clock (w.tick + 6 * txs.length) ≤ env.clock w.tick + w.cache.ttl) :
    (prepareTransactions env w txs).1.length = txs.length ∧
    (prepareTransactions env w txs).2.1.length = txs.length ∧
    (prepareTransactions env (prepareTransactions env w txs).2.2 txs).1.length = 0 ∧
    (prepareTransactions env (prepareTransactions env w txs).2.2 txs).2.1.length =
      txs.length := by
  have hdead : ∀ tx ∈ txs, ∀ j, w.tick ≤ j → j < w.tick + 6 * txs.length →
      w.cache.contains (env.clock j) tx.hash.Hex = false :=
    fun tx htx j hj _ => contains_false_mono (hmono hj) (huncached tx htx)
  obtain ⟨hf, -, hfr⟩ := prepare_distinct_uncached env w.cache w.tick (w.tick + 6 * txs.length)
    txs [] w (forgets_init w) (by simp) (nodup_keys_of_nodup_hashes hdistinct) hdead (by omega)
  have hfr2 := hfr (fronts_init env w) (by simpa using hcap)
  simp only [List.append_nil] at hfr2
  have htick := prepareTransactions_tick_le env txs w
  refine ⟨hf.length_eq, prepareTransactions_summary_length env w txs, ?_,
    prepareTransactions_summary_length env _ txs⟩
  rw [prepare_all_cached env (w.tick + 6 * txs.length) txs _ ?_ (by omega)]
  · rfl
  · intro tx htx
    have hk : tx.hash.Hex ∈ (txs.map (fun tx => tx.hash.Hex)).reverse :=
      List.mem_reverse.mpr (List.mem_map_of_mem (fun tx => tx.hash.Hex) htx)
    obtain ⟨e, i, hl, hi0, -, hexq⟩ := fronts_lookup hfr2 hk
    refine ⟨e, hl, ?_⟩
    intro j hj
    have h1 : env.clock j ≤ env.clock (w.tick + 6 * txs.length) := hmono (by omega)
    have h2 : env.clock w.tick ≤ env.clock i := hmono hi0
    omega

/-- C5 for a batch of two transfers on the empty cache of `Init`. -/
theorem second_submission_yields_no_details_witness :
    (prepareTransactions demoEnv initWorld [sampleTx 1, sampleTx 2]).1.length = 2 ∧
    (prepareTransactions demoEnv initWorld [sampleTx 1, sampleTx 2]).2.1.length = 2 ∧
    (prepareTransactions demoEnv
      (prepareTransactions demoEnv initWorld [sampleTx 1, sampleTx 2]).2.2
      [sampleTx 1, sampleTx 2]).1.length = 0 ∧
    (prepareTransactions demoEnv
      (prepareTransactions demoEnv initWorld [sampleTx 1, sampleTx 2]).2.2
      [sampleTx 1, sampleTx 2]).2.1.length = 2 :=
  second_submission_yields_no_details demoEnv initWorld [sampleTx 1, sampleTx 2]
    (fun a b h => Nat.add_le_add_left h _) (by decide) (by decide) (Or.inr (by decide))
    (by decide)

/-! ## The entry point for transactions -/

/-- C1: with dry-run off, for the three transfers whose hashes end in 1, 2 and 3 reported by
peer p1 to a cache that holds the second hash only, prepareTransactions computes the three
sightings and the two detail records, for the first and the third hash, and leaves the three
hashes in the cache; but HandleTxs then makes no storage call at all, whereas StoreTxSummary
on those sightings would have made some: the three sightings are not recorded for p1. -/
theorem sightings_not_recorded_when_details_exist :
    demoEnv.mock_plague ≠ "true" ∧
    cachedWorld.cache.contains (demoEnv.clock cachedWorld.tick) (sampleTx 2).hash.Hex = true ∧
    cachedWorld.cache.contains (demoEnv.clock cachedWorld.tick) (sampleTx 1).hash.Hex = false ∧
    cachedWorld.cache.contains (demoEnv.clock cachedWorld.tick) (sampleTx 3).hash.Hex = false ∧
    (prepareTransactions demoEnv cachedWorld [sampleTx 1, sampleTx 2, sampleTx 3]).1.length = 2 ∧
    (prepareTransactions demoEnv cachedWorld [sampleTx 1, sampleTx 2, sampleTx 3]).2.1.length
      = 3 ∧
    (prepareTransactions demoEnv cachedWorld [sampleTx 1, sampleTx 2, sampleTx 3]).1.map (fun p => p.tx_hash) =
      [(sampleTx 1).hash.Hex, (sampleTx 3).hash.Hex] ∧
    (prepareTransactions demoEnv cachedWorld [sampleTx 1, sampleTx 2, sampleTx 3]).2.1.map (fun s => s.tx_hash) =
      [(sampleTx 1).hash.Hex, (sampleTx 2).hash.Hex, (sampleTx 3).hash.Hex] ∧
    (∀ tx ∈ [sampleTx 1, sampleTx 2, sampleTx 3],
      (prepareTransactions demoEnv cachedWorld [sampleTx 1, sampleTx 2, sampleTx 3]).2.2.cache.contains
        (demoEnv.clock (prepareTransactions demoEnv cachedWorld [sampleTx 1, sampleTx 2, sampleTx 3]).2.2.tick)
        tx.hash.Hex = true) ∧
    (HandleTxs demoEnv cachedWorld [sampleTx 1, sampleTx 2, sampleTx 3] "p1").1 = none ∧
    (HandleTxs demoEnv cachedWorld [sampleTx 1, sampleTx 2, sampleTx 3] "p1").2.calls = [] ∧
    (StoreTxSummary demoEnv
      (prepareTransactions demoEnv cachedWorld [sampleTx 1, sampleTx 2, sampleTx 3]).2.2
      (prepareTransactions demoEnv cachedWorld [sampleTx 1, sampleTx 2, sampleTx 3]).2.1
      "p1").calls ≠ [] := by
  refine ⟨by decide, by decide, by decide, by decide, by decide, by decide, by decide,
    by decide, ?_, by decide, by decide, by decide⟩
  intro tx htx
  simp only [List.mem_cons, List.mem_singleton, List.not_mem_nil, or_false] at htx
  rcases htx with rfl | rfl | rfl <;> decide

/-! ## A signer that cannot be recovered -/

theorem prepareStep_ttl (env : Env) (w : World) (tx : Transaction) :
    (prepareStep env ([], [], w) tx).2.2.cache.ttl = w.cache.ttl := by
  cases h : w.cache.contains (env.clock (w.tick + 1)) tx.hash.Hex with
  | true => rw [prepareStep_world_hit env w tx h]; simp only [Get_ttl]
  | false =>
    obtain ⟨t, -, hw⟩ := prepareStep_world_miss env w tx h
    rw [hw]
    simp only [Add_ttl]

theorem prepareTransactions_ttl (env : Env) (txs : List Transaction) :
    ∀ w : World, (prepareTransactions env w txs).2.2.cache.ttl = w.cache.ttl := by
  induction txs with
  | nil => intro w; rfl
  | cons tx txs ih =>
    intro w
    rw [prepareTransactions_cons]
    simp only [ih, prepareStep_ttl]

/-- Right after a transaction that the cache did not have, at the end of a batch of distinct
hashes, the cache holds its hash, stamped with a reading of the clock. -/
theorem prepare_adds_last_key (env : Env) (w : World) (pre : List Transaction)
    (tx : Transaction) (hmono : Monotone env.clock)
    (hnd : ((pre ++ [tx]).map (fun tx => tx.hash.Hex)).Nodup)
    (hunc : ∀ tx2 ∈ pre ++ [tx], w.cache.contains (env.clock w.tick) tx2.hash.Hex = false) :
    ∃ t, LRU.lookup (prepareTransactions env w (pre ++ [tx])).2.2.cache.evictList tx.hash.Hex =
      some { key := tx.hash.Hex, value := tx.hash.Hex,
             expiresAt := env.clock t + w.cache.ttl } := by
  have hnd2 : (pre.map (fun tx => tx.hash.Hex)).Nodup ∧
      tx.hash.Hex ∉ pre.map (fun tx => tx.hash.Hex) := by
    rw [List.map_append, List.nodup_append] at hnd
    refine ⟨hnd.1, fun hm => ?_⟩
    exact hnd.2.2 hm (by simp)
  obtain ⟨-, hfg, -⟩ := prepare_distinct_uncached env w.cache w.tick
    (w.tick + 3 * pre.length) pre [] w (forgets_init w) (by simp) hnd2.1
    (fun tx2 h2 j hj _ => contains_false_mono (hmono hj)
      (hunc tx2 (List.mem_append_left _ h2))) le_rfl
  have hmiss : (prepareTransactions env w pre).2.2.cache.contains
      (env.clock ((prepareTransactions env w pre).2.2.tick + 1)) tx.hash.Hex = false := by
    apply forgets_miss hfg
    · simpa using hnd2.2
    · have := hfg.tick_ge
      exact contains_false_mono (hmono (by omega)) (hunc tx (by simp))
  obtain ⟨t, -, hw⟩ := prepareStep_world_miss env _ tx hmiss
  refine ⟨t, ?_⟩
  rw [prepareTransactions_append, prepareTransactions_cons, prepareTransactions_nil]
  simp only [hw, Add_lookup_self, prepareTransactions_ttl]

/-- C6: in a batch of 5 transactions with distinct hashes, none of them in the cache, where
signer recovery fails for the transaction at position i only, prepareTransactions returns
5 sighting records and 5 detail records, one per transaction in order; the detail record at
position i carries the sentinel signer, the text of the address 0x438308, the others carry
the text of their recovered signer; every hash, the one at position i included, is in the
cache right after its transaction was processed, and when the capacity is at least 5 and the
call stays within the time-to-live, all five are in the cache at the end. -/
theorem signer_failure_keeps_the_batch (env : Env) (w : World) (txs : List Transaction)
    (i : Nat) (err : String) (hmono : Monotone env.clock) (hlen : txs.length = 5)
    (hdistinct : (txs.map (fun tx => tx.hash)).Nodup)
    (huncached : ∀ tx ∈ txs, w.cache.contains (env.clock w.tick) tx.hash.Hex = false)
    (hi : i < txs.length) (hfail : (txs[i]).sender = Except.error err)
    (hothers : ∀ (j : Nat) (hj : j < txs.length), j ≠ i →
      ∃ a, (txs[j]).sender = Except.ok a) :
    (prepareTransactions env w txs).2.1.length = 5 ∧
    (prepareTransactions env w txs).1.length = 5 ∧
    (∀ (j : Nat) (hj : j < txs.length), ∃ ts,
      (prepareTransactions env w txs).1[j]? = some (detailRecord env (txs[j]) ts)) ∧
    ((prepareTransactions env w txs).1[i]?).map (fun p => p.signer) =
      some ((HexToAddress "0x438308").Hex env.keccak256) ∧
    (∀ (j : Nat) (hj : j < txs.length), j ≠ i → ∃ a, (txs[j]).sender = Except.ok a ∧
      ((prepareTransactions env w txs).1[j]?).map (fun p => p.signer) =
        some (a.Hex env.keccak256)) ∧
    (∀ (j : Nat) (hj : j < txs.length), ∃ t,
      LRU.lookup (prepareTransactions env w (txs.take (j + 1))).2.2.cache.evictList
        (txs[j]).hash.Hex =
      some { key := (txs[j]).hash.Hex, value := (txs[j]).hash.Hex,
             expiresAt := env.clock t + w.cache.ttl }) ∧
    ((w.cache.size = 0 ∨ 5 ≤ w.cache.size) →
      env.clock (w.tick + 15) ≤ env.clock w.tick + w.cache.ttl →
      ∀ tx ∈ txs, (prepareTransactions env w txs).2.2.cache.contains
        (env.clock (prepareTransactions env w txs).2.2.tick) tx.hash.Hex = true) := by
  have hkeys := nodup_keys_of_nodup_hashes hdistinct
  have hdead : ∀ tx ∈ txs, ∀ j, w.tick ≤ j → j < w.tick + 3 * txs.length →
      w.cache.contains (env.clock j) tx.hash.Hex = false :=
    fun tx htx j hj _ => contains_false_mono (hmono hj) (huncached tx htx)
  obtain ⟨hf, -, hfr⟩ := prepare_distinct_uncached env w.cache w.tick (w.tick + 3 * txs.length)
    txs [] w (forgets_init w) (by simp) hkeys hdead le_rfl
  have hplen : (prepareTransactions env w txs).1.length = txs.length := hf.length_eq
  have hrec : ∀ (j : Nat) (hj : j < txs.length), ∃ ts,
      (prepareTransactions env w txs).1[j]? = some (detailRecord env (txs[j]) ts) := by
    intro j hj
    have hj2 : j < (prepareTransactions env w txs).1.length := by omega
    obtain ⟨ts, hts⟩ := hf.get hj2 hj
    refine ⟨ts, ?_⟩
    rw [List.getElem?_eq_getElem hj2]
    simpa using hts
  refine ⟨?_, ?_, hrec, ?_, ?_, ?_, ?_⟩
  · rw [prepareTransactions_summary_length, hlen]
  · rw [hplen, hlen]
  · obtain ⟨ts, hts⟩ := hrec i hi
    rw [hts]
    simp [detailRecord, hfail, sentinelSigner]
  · intro j hj hji
    obtain ⟨a, ha⟩ := hothers j hj hji
    obtain ⟨ts, hts⟩ := hrec j hj
    refine ⟨a, ha, ?_⟩
    rw [hts]
    simp [detailRecord, ha]
  · intro j hj
    have htake : txs.take (j + 1) = txs.take j ++ [txs[j]] := by
      rw [← List.take_concat_get txs j hj, List.concat_eq_append]
    rw [htake]
    apply prepare_adds_last_key env w _ _ hmono
    · rw [← htake]
      exact hkeys.sublist ((List.take_sublist _ _).map _)
    · intro tx2 h2
      rw [← htake] at h2
      exact huncached tx2 (List.mem_of_mem_take h2)
  · intro hcap httl tx htx
    have hfr2 := hfr (fronts_init env w) (by simpa [hlen] using hcap)
    simp only [List.append_nil] at hfr2
    have hk : tx.hash.Hex ∈ (txs.map (fun tx => tx.hash.Hex)).reverse :=
      List.mem_reverse.mpr (List.mem_map_of_mem (fun tx => tx.hash.Hex) htx)
    obtain ⟨e, k, hl, hk0, -, hexq⟩ := fronts_lookup hfr2 hk
    rw [contains_iff]
    refine ⟨e, hl, ?_⟩
    have htick := prepareTransactions_tick_le env txs w
    rw [hlen] at htick
    have h1 : env.clock (prepareTransactions env w txs).2.2.tick ≤ env.clock (w.tick + 15) :=
      hmono (by omega)
    have h2 : env.clock w.tick ≤ env.clock k := hmono hk0
    omega

/-- C6 for five transfers on the empty cache of `Init`, the third one without a recoverable
signer. -/
theorem signer_failure_keeps_the_batch_witness :
    (prepareTransactions demoEnv initWorld
      [sampleTx 1, sampleTx 2, unsignedTx 3, sampleTx 4, sampleTx 5]).2.1.length = 5 ∧
    (prepareTransactions demoEnv initWorld
      [sampleTx 1, sampleTx 2, unsignedTx 3, sampleTx 4, sampleTx 5]).1.length = 5 ∧
    ((prepareTransactions demoEnv initWorld
      [sampleTx 1, sampleTx 2, unsignedTx 3, sampleTx 4, sampleTx 5]).1[2]?).map
        (fun p => p.signer) = some ((HexToAddress "0x438308").Hex demoEnv.keccak256) :=
  have h := signer_failure_keeps_the_batch demoEnv initWorld
    [sampleTx 1, sampleTx 2, unsignedTx 3, sampleTx 4, sampleTx 5] 2 "invalid signature"
    (fun a b h => Nat.add_le_add_left h _) (by decide) (by decide) (by decide) (by decide)
    rfl (by
      intro j hj hj2
      have hj5 : j < 5 := hj
      interval_cases j
      · exact ⟨_, rfl⟩
      · exact ⟨_, rfl⟩
      · exact absurd rfl hj2
      · exact ⟨_, rfl⟩
      · exact ⟨_, rfl⟩)
  ⟨h.1, h.2.1, h.2.2.2.1⟩

end PlagueWatcher
